import Mathlib

/-!
# Verification of the lyrataRnaMet streaming interval-join utilities

Shallow embedding of the four C utilities (`probs2pi.c`, `probs2fst.c`,
`bg2meta_plot.c`, `make_est-sfs.c`) and proofs about them.

Modelling conventions:
* C `double` values are modelled as `ℚ`.  All numeric inputs the programs
  read are decimal literals parsed by `atof`/`atoi`, and the computations of
  interest are branch tests and rational arithmetic on those values, so the
  exact-rational model is faithful for every claim settled here.  Where a
  division by zero is unreachable or its value irrelevant, `ℚ` division is
  totalized as `0` (noted at each such place); the Weir–Cockerham block of
  `estVars`, whose NaN results are observable through the `isnan` re-check
  at `probs2fst.c:520-521`, is instead computed in an IEEE-754
  extended-value arithmetic (`DVal`) that tracks infinities and NaN.
* C `int` coordinates are modelled as `ℤ`.
* Chromosome names are compared with `strcmp` (a linear order on strings);
  the embedding abstracts them as `ℕ` with its linear order, which is all
  the code uses of them.
* Files and I/O are out of scope; each reducer/driver is modelled as a pure
  function of the already-parsed records.
-/

namespace LyrataRnaMet

/-- The missing-data sentinel `#define NA 0.333333` shared by `probs2pi.c`,
`probs2fst.c` and `make_est-sfs.c`. -/
def NAq : ℚ := 333333 / 1000000

/-- C's `x != y` comparison: an `int` that is `1` when the operands differ
and `0` otherwise (`probs2pi.c:226`, `probs2fst.c:360`,
`make_est-sfs.c:486` use three of these). -/
def neqBit (x y : ℚ) : ℕ := if x ≠ y then 1 else 0

/-- Binary bitwise-or, computed digit by digit with explicit fuel so that
it is structurally recursive (the fuel bounds the first argument, which
halves at every step, so it never runs out). -/
def orBits : ℕ → ℕ → ℕ → ℕ
  | 0, x, y => x + y
  | fuel + 1, x, y =>
      if x = 0 then y
      else 2 * orBits fuel (x / 2) (y / 2) +
             (if x % 2 = 1 ∨ y % 2 = 1 then 1 else 0)

/-- C's bitwise-OR operator `x | y` on non-negative `int` operands. -/
def cBitOr (x y : ℕ) : ℕ := orBits x x y

/-- The source's missing-data test
`prob[0] != NA | prob[1] != NA | prob[2] != NA`: the three `!=` results are
combined left-to-right with the bitwise-OR operator `|`.  The `if` treats
the resulting `int` as true iff it is nonzero. -/
def missOr (a b c : ℚ) : ℕ :=
  cBitOr (cBitOr (neqBit a NAq) (neqBit b NAq)) (neqBit c NAq)

/-- A genotype-probability triplet is informative when the bitwise-OR test
is nonzero (the branch taken at `probs2pi.c:226`). -/
def informative (t : ℚ × ℚ × ℚ) : Bool := missOr t.1 t.2.1 t.2.2 ≠ 0

/-- `probs2pi.c` `readBeagle`, per-site accumulation (lines 221-235): for
each informative triplet add `prob[1] + 2*prob[2]` to `p` and `2` to `n`;
missing triplets contribute to neither. -/
def piAccum (ts : List (ℚ × ℚ × ℚ)) : ℚ × ℚ :=
  ts.foldl
    (fun pn t =>
      if informative t then (pn.1 + (t.2.1 + 2 * t.2.2), pn.2 + 2) else pn)
    (0, 0)

/-- `probs2pi.c` `readBeagle`, per-site emission (lines 236-240): the site
is kept iff `n / 2 >= min`; the emitted value is `2*p*(1-p)` after
`p /= n`. -/
def piSite (ts : List (ℚ × ℚ × ℚ)) (min : ℤ) : Option ℚ :=
  let pn := piAccum ts
  if (min : ℚ) ≤ pn.2 / 2 then
    let p := pn.1 / pn.2
    some (2 * p * (1 - p))
  else none

/-- Specification-side count of informative (non-missing) individuals. -/
def infCount (ts : List (ℚ × ℚ × ℚ)) : ℕ := (ts.filter informative).length

/-- Specification-side allele-dosage sum over informative individuals. -/
def doseSum (ts : List (ℚ × ℚ × ℚ)) : ℚ :=
  ((ts.filter informative).map (fun t => t.2.1 + 2 * t.2.2)).sum

theorem piAccum_eq (ts : List (ℚ × ℚ × ℚ)) :
    piAccum ts = (doseSum ts, 2 * (infCount ts : ℚ)) := by
  suffices h : ∀ pn : ℚ × ℚ,
      ts.foldl
        (fun pn t =>
          if informative t then (pn.1 + (t.2.1 + 2 * t.2.2), pn.2 + 2) else pn)
        pn = (pn.1 + doseSum ts, pn.2 + 2 * (infCount ts : ℚ)) by
    have := h (0, 0)
    simpa [piAccum] using this
  induction ts with
  | nil => intro pn; simp [doseSum, infCount]
  | cons t ts ih =>
      intro pn
      by_cases hi : informative t
      · simp only [List.foldl_cons, hi, if_pos, doseSum, infCount,
          List.filter_cons, List.map_cons]
        rw [ih]
        simp [doseSum, infCount, hi]
        constructor <;> ring
      · simp only [List.foldl_cons, hi, if_neg, Bool.false_eq_true,
          not_false_iff, ite_false]
        rw [ih]
        simp [doseSum, infCount, hi]

theorem informative_na : informative (NAq, NAq, NAq) = false := by
  simp only [informative, missOr, neqBit]
  norm_num
  rfl

theorem infCount_na_mid (l1 l2 : List (ℚ × ℚ × ℚ)) :
    infCount (l1 ++ (NAq, NAq, NAq) :: l2) = infCount (l1 ++ l2) := by
  simp [infCount, List.filter_append, List.filter_cons, informative_na]

theorem doseSum_na_mid (l1 l2 : List (ℚ × ℚ × ℚ)) :
    doseSum (l1 ++ (NAq, NAq, NAq) :: l2) = doseSum (l1 ++ l2) := by
  simp [doseSum, List.filter_append, List.filter_cons, informative_na]

/-- C9: the source's bitwise-OR missing-data test
`prob[0] != NA | prob[1] != NA | prob[2] != NA` is nonzero exactly when at
least one of the three probabilities differs from the sentinel `NA`, i.e.
it is value-equivalent to the logical OR of the three inequality tests; in
particular an all-sentinel triplet is classified missing and a mixed
triplet informative. -/
theorem missOr_equiv_logical_or :
    (∀ a b c : ℚ, missOr a b c ≠ 0 ↔ (a ≠ NAq ∨ b ≠ NAq ∨ c ≠ NAq)) ∧
    informative (NAq, NAq, NAq) = false ∧ informative (NAq, NAq, 1) = true := by
  refine ⟨fun a b c => ?_, informative_na, ?_⟩
  · simp only [missOr, neqBit]
    by_cases ha : a = NAq <;> by_cases hb : b = NAq <;> by_cases hc : c = NAq <;>
      simp [ha, hb, hc] <;> decide
  · simp only [informative, missOr, neqBit]
    have : (1 : ℚ) ≠ NAq := by norm_num [NAq]
    simp [this]
    decide

/-- C5: for a Beagle site line, the Pi reducer emits `2·p·(1-p)` where
`p = (Σ over non-missing individuals of P(het) + 2·P(hom-alt)) / (2·number
of non-missing individuals)`; an all-`NA` triplet contributes to neither
sum nor count; the site is skipped iff the number of non-missing
individuals is below `min`. -/
theorem piSite_correct (ts : List (ℚ × ℚ × ℚ)) (min : ℤ) :
    (piSite ts min = none ↔ (infCount ts : ℤ) < min) ∧
    (∀ v, piSite ts min = some v →
      v = 2 * (doseSum ts / (2 * (infCount ts : ℚ))) *
            (1 - doseSum ts / (2 * (infCount ts : ℚ)))) ∧
    (∀ l1 l2, piSite (l1 ++ (NAq, NAq, NAq) :: l2) min = piSite (l1 ++ l2) min) := by
  have hacc : piAccum ts = (doseSum ts, 2 * (infCount ts : ℚ)) := piAccum_eq ts
  have hdiv : (2 : ℚ) * (infCount ts : ℚ) / 2 = (infCount ts : ℚ) := by ring
  refine ⟨?_, ?_, ?_⟩
  · simp only [piSite, hacc, hdiv]
    constructor
    · intro h
      by_contra hlt
      push_neg at hlt
      have : (min : ℚ) ≤ (infCount ts : ℚ) := by exact_mod_cast hlt
      simp [this] at h
    · intro h
      have : ¬ ((min : ℚ) ≤ (infCount ts : ℚ)) := by
        push_neg
        exact_mod_cast h
      simp [this]
  · intro v hv
    simp only [piSite, hacc, hdiv] at hv
    by_cases hle : (min : ℚ) ≤ (infCount ts : ℚ)
    · simp only [hle, if_pos] at hv
      exact (Option.some.inj hv).symm
    · simp [hle] at hv
  · intro l1 l2
    simp only [piSite, piAccum_eq, infCount_na_mid, doseSum_na_mid]

/-! ## `bg2meta_plot.c`: the coordinate mapper -/

/-- A BED region as loaded by `readBed` in `bg2meta_plot.c` (`bed_s`):
`start` and `end` are `double` fields there, so they are `ℚ` here; `stop`
stands for the C field `end` (a Lean keyword). -/
structure Bed_s where
  chr : ℕ
  start : ℚ
  stop : ℚ
  str : Char
deriving Repr, DecidableEq

instance : Inhabited Bed_s := ⟨⟨0, 0, 0, '+'⟩⟩

/-- The normalized-location computation of `readBg`
(`bg2meta_plot.c:317-329`): the four flank cases are strand-dependent, the
final (body) case computes `(end - pos) / (end - start + 1)` for both
strands. -/
def distOf (b : Bed_s) (pos : ℚ) (bp : ℚ) : ℚ :=
  if pos < b.start ∧ b.str = '+' then (pos - b.start) / bp
  else if pos < b.start ∧ b.str = '-' then 1 + (b.start - pos) / bp
  else if pos > b.stop ∧ b.str = '+' then 1 + (pos - b.stop) / bp
  else if pos > b.stop ∧ b.str = '-' then (b.stop - pos) / bp
  else (b.stop - pos) / (b.stop - b.start + 1)

/-- C2: at the failing input — `+`-strand region `[100,200]`, `bp = 50`,
position `100` — the code's body formula gives `100/101 ≈ 0.99`, not the
`0.0` required by the specification's `+`-strand body formula
`(position - start) / (end - start + 1)`; position `200` gives `0`
instead of `≈ 0.99`: the code's single body formula is the `-`-strand one
applied to both strands, so the `+`-strand body is traversed in reverse
(and is discontinuous against the code's own `+`-strand flank formulas). -/
theorem distOf_plus_body_reversed :
    distOf ⟨1, 100, 200, '+'⟩ 100 50 = 100 / 101 ∧
    distOf ⟨1, 100, 200, '+'⟩ 100 50 ≠ 0 ∧
    distOf ⟨1, 100, 200, '+'⟩ 200 50 = 0 := by
  refine ⟨?_, ?_, ?_⟩ <;> norm_num [distOf]

/-! ## `make_est-sfs.c`: outgroup gate and missing-data imputation -/

/-- The outgroup gate at `make_est-sfs.c:480-481`: the site is dropped
(`break` out of the field loop, then `continue`) iff at least two of the
three outgroup calls are `'N'`; `emitGate` is true iff the site survives. -/
def emitGate (o1 o2 o3 : Char) : Bool :=
  ¬((o1 = 'N' ∧ o2 = 'N') ∨ (o1 = 'N' ∧ o3 = 'N') ∨ (o2 = 'N' ∧ o3 = 'N'))

/-- C's `round`: round half away from zero (the arguments here are sums of
probabilities, hence non-negative, but the general form is kept). -/
def cRound (q : ℚ) : ℚ := if 0 ≤ q then ((⌊q + 1 / 2⌋ : ℤ) : ℚ) else ((-⌊-q + 1 / 2⌋ : ℤ) : ℚ)

/-- The Bernoulli-draw loop of `make_est-sfs.c:506-512`: one uniform
variate per missing allele copy; a draw below `p` increments the alternate
count, otherwise the reference count.  The variates are supplied as a
stream `rnds`. -/
def drawLoop (p : ℚ) : (ℕ → ℚ) → ℕ → ℚ × ℚ → ℚ × ℚ
  | _, 0, ra => ra
  | rnds, n + 1, ra =>
      drawLoop p (fun i => rnds (i + 1)) n
        (if rnds 0 < p then (ra.1, ra.2 + 1) else (ra.1 + 1, ra.2))

/-- Missing-genotype imputation (`make_est-sfs.c:499-513`): when any
allele copies are missing, `p = round(alt_i)/round(ref_i+alt_i)`; `p == 0`
adds all missing copies to the reference count, `p == 1` adds them all to
the alternate count, and otherwise each copy is drawn from a Bernoulli
distribution with parameter `p`.  The C loop `for(i = 0; i < mis_i; i++)`
with integer `i` and `double` `mis_i` runs `⌈mis_i⌉` times. -/
def impute (ref_i alt_i mis_i : ℚ) (rnds : ℕ → ℚ) : ℚ × ℚ :=
  if 0 < mis_i then
    let p := cRound alt_i / cRound (ref_i + alt_i)
    if p = 0 then (ref_i + mis_i, alt_i)
    else if p = 1 then (ref_i, alt_i + mis_i)
    else drawLoop p rnds ⌈mis_i⌉.toNat (ref_i, alt_i)
  else (ref_i, alt_i)

/-- C7: a site that reaches the outgroup check is emitted iff at most one
of its three outgroup calls is `'N'`; and when allele copies are missing,
`p = 0` deterministically adds them all to the reference count and `p = 1`
adds them all to the alternate count — independent of the random stream. -/
theorem estSfs_gate_and_impute :
    (∀ o1 o2 o3 : Char, emitGate o1 o2 o3 = true ↔ [o1, o2, o3].count 'N' ≤ 1) ∧
    (∀ (ref_i alt_i mis_i : ℚ) (rnds : ℕ → ℚ), 0 < mis_i →
      (cRound alt_i / cRound (ref_i + alt_i) = 0 →
        impute ref_i alt_i mis_i rnds = (ref_i + mis_i, alt_i)) ∧
      (cRound alt_i / cRound (ref_i + alt_i) = 1 →
        impute ref_i alt_i mis_i rnds = (ref_i, alt_i + mis_i))) := by
  constructor
  · intro o1 o2 o3
    by_cases h1 : o1 = 'N' <;> by_cases h2 : o2 = 'N' <;> by_cases h3 : o3 = 'N' <;>
      simp [emitGate, h1, h2, h3, List.count_cons]
  · intro ref_i alt_i mis_i rnds hmis
    constructor
    · intro hp
      simp [impute, hmis, hp]
    · intro hp
      have hp0 : cRound alt_i / cRound (ref_i + alt_i) ≠ 0 := by
        rw [hp]; norm_num
      simp [impute, hmis, hp, hp0]

/-- Witness for `estSfs_gate_and_impute`: concrete gate instances and the
deterministic `p = 0` imputation at `ref_i = 4`, `alt_i = 0`, `mis_i = 2`. -/
theorem estSfs_gate_and_impute_witness :
    emitGate 'A' 'N' 'C' = true ∧ emitGate 'N' 'C' 'N' = false ∧
    impute 4 0 2 (fun _ => 1) = (6, 0) := by
  refine ⟨?_, ?_, ?_⟩
  · rw [estSfs_gate_and_impute.1]; decide
  · by_contra h
    rw [Bool.not_eq_false, estSfs_gate_and_impute.1] at h
    simp [List.count_cons] at h
  · have h := (estSfs_gate_and_impute.2 4 0 2 (fun _ => 1) (by norm_num)).1
      (by norm_num [cRound])
    rw [h]
    norm_num

/-! ## `probs2fst.c`: the Weir–Cockerham variance-component reducer -/

/-- `Var_s` from `probs2fst.c`: `hw` holds the between-population
component `a`, `hb` holds `a + b + c`. -/
structure Var_s where
  hw : ℚ
  hb : ℚ
deriving Repr, DecidableEq

/-- The running sums of `estVars`'s first loop (`probs2fst.c:484-496`):
per-population dosage sums `p` and informative counts `n`, plus the
overall `pbar`, `hbar` and `n_sum` accumulators. -/
structure Tally where
  p : ℕ → ℚ
  n : ℕ → ℚ
  pbar : ℚ
  hbar : ℚ
  n_sum : ℚ

attribute [ext] Tally

/-- All-zero initial tally (`memset` at `probs2fst.c:481-482`). -/
def tally0 : Tally := ⟨fun _ => 0, fun _ => 0, 0, 0, 0⟩

/-- One iteration of the outer loop of `estVars` (`probs2fst.c:484-496`):
individual (Beagle column) `i` with dosage pair `d` is skipped when its
dosage is the missing sentinel `9`; otherwise every `plist` entry mapping
column `i` to a population adds to that population's sums. -/
def tallyStep (plist : List (ℕ × ℕ)) (i : ℕ) (d : ℚ × ℚ) (t : Tally) : Tally :=
  if d.1 = 9 then t
  else
    plist.foldl
      (fun t pr =>
        if pr.1 = i then
          { p := fun k => if k = pr.2 then t.p k + d.1 else t.p k
            n := fun k => if k = pr.2 then t.n k + 1 else t.n k
            pbar := t.pbar + d.1
            hbar := t.hbar + d.2
            n_sum := t.n_sum + 1 }
        else t)
      t

/-- The outer loop of `estVars` over all Beagle columns, carrying the
column index. -/
def tallyGo (plist : List (ℕ × ℕ)) : ℕ → List (ℚ × ℚ) → Tally → Tally
  | _, [], t => t
  | i, d :: ds, t => tallyGo plist (i + 1) ds (tallyStep plist i d t)

def tallyOf (dosage : List (ℚ × ℚ)) (plist : List (ℕ × ℕ)) : Tally :=
  tallyGo plist 0 dosage tally0

/-- Extended value of an IEEE-754 `double` computation: an exact finite
rational, a signed infinity, or NaN.  Finite arithmetic is idealized as
exact (the dosage sums and counts reaching `estVars` are small dyadic
rationals, on which `double` arithmetic is exact); infinities and NaN
follow the IEEE-754 rules.  Zeros are treated as `+0`: every zero
divisor reachable in `estVars` is produced as a nonnegative count, a
sum of nonnegative terms, or a subtraction of equal values, all of
which IEEE-754 round-to-nearest yields as `+0`. -/
inductive DVal where
  | fin : ℚ → DVal
  | inf : DVal
  | ninf : DVal
  | nan : DVal
deriving Repr, DecidableEq

def DVal.isNan : DVal → Bool
  | .nan => true
  | _ => false

/-- Collapse to `ℚ`: the exact value of a finite result, and an
out-of-scope default for the non-finite ones (no theorem below depends
on the collapsed value of an infinite component). -/
def DVal.toRat : DVal → ℚ
  | .fin q => q
  | _ => 0

def dNeg : DVal → DVal
  | .fin q => .fin (-q)
  | .inf => .ninf
  | .ninf => .inf
  | .nan => .nan

/-- IEEE-754 addition on extended values (finite part exact). -/
def dAdd : DVal → DVal → DVal
  | .nan, .nan => .nan
  | .nan, .inf => .nan
  | .nan, .ninf => .nan
  | .nan, .fin _ => .nan
  | .inf, .nan => .nan
  | .inf, .inf => .inf
  | .inf, .ninf => .nan
  | .inf, .fin _ => .inf
  | .ninf, .nan => .nan
  | .ninf, .inf => .nan
  | .ninf, .ninf => .ninf
  | .ninf, .fin _ => .ninf
  | .fin _, .nan => .nan
  | .fin _, .inf => .inf
  | .fin _, .ninf => .ninf
  | .fin a, .fin b => .fin (a + b)

def dSub (x y : DVal) : DVal := dAdd x (dNeg y)

/-- IEEE-754 multiplication on extended values (`inf * 0 = NaN`). -/
def dMul : DVal → DVal → DVal
  | .nan, .nan => .nan
  | .nan, .inf => .nan
  | .nan, .ninf => .nan
  | .nan, .fin _ => .nan
  | .inf, .nan => .nan
  | .inf, .inf => .inf
  | .inf, .ninf => .ninf
  | .inf, .fin b => if b = 0 then .nan else if 0 < b then .inf else .ninf
  | .ninf, .nan => .nan
  | .ninf, .inf => .ninf
  | .ninf, .ninf => .inf
  | .ninf, .fin b => if b = 0 then .nan else if 0 < b then .ninf else .inf
  | .fin _, .nan => .nan
  | .fin a, .inf => if a = 0 then .nan else if 0 < a then .inf else .ninf
  | .fin a, .ninf => if a = 0 then .nan else if 0 < a then .ninf else .inf
  | .fin a, .fin b => .fin (a * b)

/-- IEEE-754 division on extended values (`0/0 = NaN`, `x/+0 = ±inf`,
`inf/inf = NaN`, `x/inf = 0`; zero divisors are `+0`, see `DVal`). -/
def dDiv : DVal → DVal → DVal
  | .nan, .nan => .nan
  | .nan, .inf => .nan
  | .nan, .ninf => .nan
  | .nan, .fin _ => .nan
  | .inf, .nan => .nan
  | .inf, .inf => .nan
  | .inf, .ninf => .nan
  | .inf, .fin b => if b < 0 then .ninf else .inf
  | .ninf, .nan => .nan
  | .ninf, .inf => .nan
  | .ninf, .ninf => .nan
  | .ninf, .fin b => if b < 0 then .inf else .ninf
  | .fin _, .nan => .nan
  | .fin _, .inf => .fin 0
  | .fin _, .ninf => .fin 0
  | .fin a, .fin b =>
      if b = 0 then (if a = 0 then .nan else if 0 < a then .inf else .ninf)
      else .fin (a / b)

/-- IEEE-754 `<` on extended values: any comparison with NaN is false. -/
def dLt : DVal → DVal → Bool
  | .nan, .nan => false
  | .nan, .inf => false
  | .nan, .ninf => false
  | .nan, .fin _ => false
  | .inf, .nan => false
  | .inf, .inf => false
  | .inf, .ninf => false
  | .inf, .fin _ => false
  | .ninf, .nan => false
  | .ninf, .inf => true
  | .ninf, .ninf => false
  | .ninf, .fin _ => true
  | .fin _, .nan => false
  | .fin _, .inf => true
  | .fin _, .ninf => false
  | .fin a, .fin b => decide (a < b)

/-- The Weir–Cockerham variance components `a`, `b`, `c` of
`probs2fst.c:513-519`, computed from the first loop's sums in IEEE
extended arithmetic with the source's exact association: `p[i]` after
`p[i] /= n[i] * 2`, `pbar` and `hbar` after their normalizations, `s2`,
`nc`, then `a`, `b`, `c` (lines 517-519).  Degenerate denominators
(`nbar == 1`, `r == 1`, empty populations) produce infinities and NaN
exactly as the `double` program does. -/
def wcCore (p n : ℕ → ℚ) (pbarS hbarS n_sum : ℚ) (pop_n : ℕ) : DVal × DVal × DVal :=
  let pfreq : ℕ → DVal := fun k => dDiv (.fin (p k)) (.fin (n k * 2))
  let n_sum2 := ((List.range pop_n).map fun k => n k * n k).sum
  let r : ℚ := pop_n
  let nbar := dDiv (.fin n_sum) (.fin r)
  let pbar := dDiv (.fin pbarS) (.fin (n_sum * 2))
  let hbar := dDiv (.fin hbarS) (.fin n_sum)
  let s2 := dDiv
    ((List.range pop_n).foldl
      (fun acc k => dAdd acc (dMul (dMul (.fin (n k)) (dSub (pfreq k) pbar)) (dSub (pfreq k) pbar)))
      (.fin 0))
    (dMul (.fin (r - 1)) nbar)
  let nc := dSub (.fin n_sum) (dDiv (dDiv (.fin n_sum2) (.fin n_sum)) (.fin (r - 1)))
  let a := dDiv
    (dMul
      (dSub s2
        (dDiv
          (dSub
            (dSub (dMul pbar (dSub (.fin 1) pbar)) (dDiv (dMul (.fin (r - 1)) s2) (.fin r)))
            (dDiv hbar (.fin 4)))
          (dSub nbar (.fin 1))))
      nbar)
    nc
  let b := dDiv
    (dMul
      (dSub
        (dSub (dMul pbar (dSub (.fin 1) pbar)) (dDiv (dMul s2 (.fin (r - 1))) (.fin r)))
        (dMul hbar (dDiv (dSub (dMul (.fin 2) nbar) (.fin 1)) (dMul (.fin 4) nbar))))
      nbar)
    (dSub nbar (.fin 1))
  let c := dDiv hbar (.fin 2)
  (a, b, c)

/-- `estVars` (`probs2fst.c:468-529`).  The first loop's sums are the
`Tally`; `ok == 0` is exactly "some population has `n[i] < min`"; the
`maf` tests use IEEE comparison (false on NaN, as when `n_sum == 0`);
the a/b/c block runs in IEEE extended arithmetic (`wcCore`), and `none`
stands for the not-a-number sentinel `vars.hw = 0.0/0.0` of both the
early return at lines 507-512 and the `isnan(a) || isnan(b) ||
isnan(c)` re-check at lines 520-521. -/
def estVars (dosage : List (ℚ × ℚ)) (plist : List (ℕ × ℕ)) (pop_n : ℕ)
    (min : ℤ) (maf : ℚ) : Option Var_s :=
  let t := tallyOf dosage plist
  let pbar := dDiv (.fin t.pbar) (.fin (t.n_sum * 2))
  if (∃ k ∈ List.range pop_n, t.n k < (min : ℚ)) ∨ dLt pbar (.fin maf) = true ∨
      dLt (dSub (.fin 1) pbar) (.fin maf) = true then
    none
  else
    let abc := wcCore t.p t.n t.pbar t.hbar t.n_sum pop_n
    if abc.1.isNan = true ∨ abc.2.1.isNan = true ∨ abc.2.2.isNan = true then none
    else some ⟨abc.1.toRat, (dAdd (dAdd abc.1 abc.2.1) abc.2.2).toRat⟩

/-- `estFst` (`probs2fst.c:531-533`). -/
def estFst (vars : Var_s) : ℚ := vars.hw / vars.hb

/-! Specification-side (population-major) recomputation of the tally. -/

/-- Informative-individual count of population `k`: the `plist` entries
for `k` whose Beagle column carries a non-sentinel dosage. -/
def infCountPop (dosage : List (ℚ × ℚ)) (plist : List (ℕ × ℕ)) (k : ℕ) : ℕ :=
  (plist.filter fun pr => pr.2 == k && decide ((dosage.getD pr.1 (9, 0)).1 ≠ 9)).length

/-- Overall informative count (`n_sum`), population-major. -/
def infCountAll (dosage : List (ℚ × ℚ)) (plist : List (ℕ × ℕ)) : ℕ :=
  (plist.filter fun pr => decide ((dosage.getD pr.1 (9, 0)).1 ≠ 9)).length

/-- Overall dosage sum (`pbar` before normalization), population-major. -/
def doseSumAll (dosage : List (ℚ × ℚ)) (plist : List (ℕ × ℕ)) : ℚ :=
  ((plist.filter fun pr => decide ((dosage.getD pr.1 (9, 0)).1 ≠ 9)).map
    fun pr => (dosage.getD pr.1 (9, 0)).1).sum

/-- Dosage sum of population `k` (`p[k]` before normalization),
population-major. -/
def doseSumPop (dosage : List (ℚ × ℚ)) (plist : List (ℕ × ℕ)) (k : ℕ) : ℚ :=
  ((plist.filter fun pr => pr.2 == k && decide ((dosage.getD pr.1 (9, 0)).1 ≠ 9)).map
    fun pr => (dosage.getD pr.1 (9, 0)).1).sum

/-- Overall heterozygosity sum (`hbar` before normalization),
population-major. -/
def hetSumAll (dosage : List (ℚ × ℚ)) (plist : List (ℕ × ℕ)) : ℚ :=
  ((plist.filter fun pr => decide ((dosage.getD pr.1 (9, 0)).1 ≠ 9)).map
    fun pr => (dosage.getD pr.1 (9, 0)).2).sum

/-- Suffix form of a population-major sum, used to characterize the
column-major double loop of `estVars` by induction: each `plist` entry
pointing at a non-sentinel column at or beyond offset `s` contributes
`f` of that column's dosage pair. -/
def pmSumFrom (plist : List (ℕ × ℕ)) (sel : ℕ × ℕ → Prop) [DecidablePred sel]
    (f : ℚ × ℚ → ℚ) (s : ℕ) (ds : List (ℚ × ℚ)) : ℚ :=
  (plist.map fun pr =>
    if sel pr ∧ s ≤ pr.1 ∧ (ds.getD (pr.1 - s) (9, 0)).1 ≠ 9
    then f (ds.getD (pr.1 - s) (9, 0)) else 0).sum

theorem pmSumFrom_nil (plist : List (ℕ × ℕ)) (sel : ℕ × ℕ → Prop) [DecidablePred sel]
    (f : ℚ × ℚ → ℚ) (s : ℕ) : pmSumFrom plist sel f s [] = 0 := by
  simp [pmSumFrom]

theorem pmSumFrom_cons (plist : List (ℕ × ℕ)) (sel : ℕ × ℕ → Prop) [DecidablePred sel]
    (f : ℚ × ℚ → ℚ) (s : ℕ) (d : ℚ × ℚ) (ds : List (ℚ × ℚ)) :
    pmSumFrom plist sel f s (d :: ds) =
      (if d.1 = 9 then 0
        else ((plist.countP fun pr => decide (sel pr ∧ pr.1 = s)) : ℚ) * f d) +
      pmSumFrom plist sel f (s + 1) ds := by
  induction plist with
  | nil => by_cases hd : d.1 = 9 <;> simp [pmSumFrom, hd]
  | cons pr rest ih =>
      simp only [pmSumFrom, List.map_cons, List.sum_cons, List.countP_cons] at *
      rw [ih]
      rcases Nat.lt_trichotomy pr.1 s with hps | hps | hps
      · -- entry points before the current column: it contributes nothing
        have h1 : ¬ (sel pr ∧ s ≤ pr.1 ∧ ((d :: ds).getD (pr.1 - s) (9, 0)).1 ≠ 9) := by
          rintro ⟨-, h, -⟩; omega
        have h2 : ¬ (sel pr ∧ s + 1 ≤ pr.1 ∧ (ds.getD (pr.1 - (s + 1)) (9, 0)).1 ≠ 9) := by
          rintro ⟨-, h, -⟩; omega
        have h3 : ¬ (decide (sel pr ∧ pr.1 = s) = true) := by
          simp only [decide_eq_true_eq]
          rintro ⟨-, h⟩; omega
        rw [if_neg h1, if_neg h2, if_neg h3]
        push_cast
        try ring
      · -- entry points exactly at the current column
        have hsub : pr.1 - s = 0 := by omega
        have hget : (d :: ds).getD (pr.1 - s) (9, 0) = d := by
          rw [hsub]; rfl
        have h2 : ¬ (sel pr ∧ s + 1 ≤ pr.1 ∧ (ds.getD (pr.1 - (s + 1)) (9, 0)).1 ≠ 9) := by
          rintro ⟨-, h, -⟩; omega
        rw [hget, if_neg h2]
        by_cases hd : d.1 = 9
        · have h1 : ¬ (sel pr ∧ s ≤ pr.1 ∧ d.1 ≠ 9) := by
            rintro ⟨-, -, h⟩; exact h hd
          rw [if_neg h1, if_pos hd, if_pos hd]
          try ring
        · rw [if_neg hd, if_neg hd]
          by_cases hsel : sel pr
          · have h1 : sel pr ∧ s ≤ pr.1 ∧ d.1 ≠ 9 := ⟨hsel, by omega, hd⟩
            have h3 : decide (sel pr ∧ pr.1 = s) = true := by
              simp only [decide_eq_true_eq]; exact ⟨hsel, hps⟩
            rw [if_pos h1, if_pos h3]
            push_cast
            ring
          · have h1 : ¬ (sel pr ∧ s ≤ pr.1 ∧ d.1 ≠ 9) := by
              rintro ⟨h, -, -⟩; exact hsel h
            have h3 : ¬ (decide (sel pr ∧ pr.1 = s) = true) := by
              simp only [decide_eq_true_eq]
              rintro ⟨h, -⟩; exact hsel h
            rw [if_neg h1, if_neg h3]
            push_cast
            ring
      · -- entry points past the current column: shift to offset `s + 1`
        have hsub : pr.1 - s = (pr.1 - (s + 1)) + 1 := by omega
        have hget : (d :: ds).getD (pr.1 - s) (9, 0) = ds.getD (pr.1 - (s + 1)) (9, 0) := by
          rw [hsub]; rfl
        have hiff : (s ≤ pr.1) = (s + 1 ≤ pr.1) := propext (by omega)
        have h3 : ¬ (decide (sel pr ∧ pr.1 = s) = true) := by
          simp only [decide_eq_true_eq]
          rintro ⟨-, h⟩; omega
        simp only [hget, hiff, if_neg h3]
        push_cast
        try ring


theorem tallyStep_char (plist : List (ℕ × ℕ)) (i : ℕ) (d : ℚ × ℚ) (t : Tally) :
    tallyStep plist i d t =
      if d.1 = 9 then t
      else
        { p := fun k => t.p k + ((plist.countP fun pr => decide (pr.2 = k ∧ pr.1 = i)) : ℚ) * d.1
          n := fun k => t.n k + ((plist.countP fun pr => decide (pr.2 = k ∧ pr.1 = i)) : ℚ)
          pbar := t.pbar + ((plist.countP fun pr => decide (True ∧ pr.1 = i)) : ℚ) * d.1
          hbar := t.hbar + ((plist.countP fun pr => decide (True ∧ pr.1 = i)) : ℚ) * d.2
          n_sum := t.n_sum + ((plist.countP fun pr => decide (True ∧ pr.1 = i)) : ℚ) } := by
  unfold tallyStep
  by_cases hd : d.1 = 9
  · simp [hd]
  · rw [if_neg hd, if_neg hd]
    induction plist generalizing t with
    | nil => simp only [List.foldl_nil, List.countP_nil]; ext k <;> simp
    | cons pr rest ih =>
        simp only [List.foldl_cons, List.countP_cons]
        rw [ih]
        by_cases hpi : pr.1 = i
        · rw [if_pos hpi]
          simp only [Tally.mk.injEq]
          refine ⟨funext fun k => ?_, funext fun k => ?_, ?_, ?_, ?_⟩
          · by_cases hk : k = pr.2
            · simp [hk, hpi]
              try push_cast
              try ring
            · have hk' : ¬ (pr.2 = k) := fun h => hk h.symm
              simp [hk, hk', hpi]
          · by_cases hk : k = pr.2
            · simp [hk, hpi]
              try push_cast
              try ring
            · have hk' : ¬ (pr.2 = k) := fun h => hk h.symm
              simp [hk, hk', hpi]
          · simp [hpi]
            try push_cast
            try ring
          · simp [hpi]
            try push_cast
            try ring
          · simp [hpi]
            try push_cast
            try ring
        · rw [if_neg hpi]
          simp only [Tally.mk.injEq]
          refine ⟨funext fun k => ?_, funext fun k => ?_, ?_, ?_, ?_⟩ <;>
            simp [hpi]

theorem tallyGo_char (plist : List (ℕ × ℕ)) :
    ∀ (ds : List (ℚ × ℚ)) (s : ℕ) (t : Tally),
      tallyGo plist s ds t =
        { p := fun k => t.p k + pmSumFrom plist (fun pr => pr.2 = k) (fun d => d.1) s ds
          n := fun k => t.n k + pmSumFrom plist (fun pr => pr.2 = k) (fun _ => 1) s ds
          pbar := t.pbar + pmSumFrom plist (fun _ => True) (fun d => d.1) s ds
          hbar := t.hbar + pmSumFrom plist (fun _ => True) (fun d => d.2) s ds
          n_sum := t.n_sum + pmSumFrom plist (fun _ => True) (fun _ => 1) s ds } := by
  intro ds
  induction ds with
  | nil =>
      intro s t
      simp only [tallyGo, pmSumFrom_nil, add_zero]
  | cons d ds ih =>
      intro s t
      show tallyGo plist (s + 1) ds (tallyStep plist s d t) = _
      rw [ih, tallyStep_char]
      by_cases hd : d.1 = 9
      · rw [if_pos hd]
        simp only [Tally.mk.injEq]
        refine ⟨funext fun k => ?_, funext fun k => ?_, ?_, ?_, ?_⟩ <;>
          rw [pmSumFrom_cons, if_pos hd, zero_add]
      · rw [if_neg hd]
        simp only [Tally.mk.injEq]
        refine ⟨funext fun k => ?_, funext fun k => ?_, ?_, ?_, ?_⟩ <;>
          rw [pmSumFrom_cons, if_neg hd] <;> push_cast <;> try ring

theorem pmSum_n_eq (dosage : List (ℚ × ℚ)) (plist : List (ℕ × ℕ)) (k : ℕ) :
    pmSumFrom plist (fun pr => pr.2 = k) (fun _ => 1) 0 dosage =
      (infCountPop dosage plist k : ℚ) := by
  induction plist with
  | nil => simp [pmSumFrom, infCountPop]
  | cons pr rest ih =>
      simp only [pmSumFrom, List.map_cons, List.sum_cons, infCountPop,
        List.filter_cons] at *
      by_cases hc : pr.2 = k ∧ (dosage.getD pr.1 (9, 0)).1 ≠ 9
      · have h1 : pr.2 = k ∧ 0 ≤ pr.1 ∧ (dosage.getD (pr.1 - 0) (9, 0)).1 ≠ 9 :=
          ⟨hc.1, Nat.zero_le _, hc.2⟩
        have h2 : (pr.2 == k && decide ((dosage.getD pr.1 (9, 0)).1 ≠ 9)) = true := by
          rw [Bool.and_eq_true, beq_iff_eq, decide_eq_true_eq]
          exact ⟨hc.1, hc.2⟩
        rw [if_pos h1, h2, ih]
        simp
        try push_cast
        try ring
      · have h1 : ¬ (pr.2 = k ∧ 0 ≤ pr.1 ∧ (dosage.getD (pr.1 - 0) (9, 0)).1 ≠ 9) :=
          fun h => hc ⟨h.1, h.2.2⟩
        have h2 : (pr.2 == k && decide ((dosage.getD pr.1 (9, 0)).1 ≠ 9)) = false := by
          by_contra hb
          rw [Bool.not_eq_false, Bool.and_eq_true, beq_iff_eq, decide_eq_true_eq] at hb
          exact hc hb
        rw [if_neg h1, h2, ih, zero_add]
        simp

theorem pmSum_nsum_eq (dosage : List (ℚ × ℚ)) (plist : List (ℕ × ℕ)) :
    pmSumFrom plist (fun _ => True) (fun _ => 1) 0 dosage =
      (infCountAll dosage plist : ℚ) := by
  induction plist with
  | nil => simp [pmSumFrom, infCountAll]
  | cons pr rest ih =>
      simp only [pmSumFrom, List.map_cons, List.sum_cons, infCountAll,
        List.filter_cons] at *
      by_cases hc : (dosage.getD pr.1 (9, 0)).1 ≠ 9
      · have h1 : True ∧ 0 ≤ pr.1 ∧ (dosage.getD (pr.1 - 0) (9, 0)).1 ≠ 9 :=
          ⟨trivial, Nat.zero_le _, hc⟩
        have h2 : (decide ((dosage.getD pr.1 (9, 0)).1 ≠ 9)) = true := by
          rw [decide_eq_true_eq]; exact hc
        rw [if_pos h1, h2, ih]
        simp
        try push_cast
        try ring
      · have h1 : ¬ (True ∧ 0 ≤ pr.1 ∧ (dosage.getD (pr.1 - 0) (9, 0)).1 ≠ 9) :=
          fun h => hc h.2.2
        have h2 : (decide ((dosage.getD pr.1 (9, 0)).1 ≠ 9)) = false := by
          rw [decide_eq_false_iff_not]; exact hc
        rw [if_neg h1, h2, ih, zero_add]
        simp

theorem pmSum_pbar_eq (dosage : List (ℚ × ℚ)) (plist : List (ℕ × ℕ)) :
    pmSumFrom plist (fun _ => True) (fun d => d.1) 0 dosage =
      doseSumAll dosage plist := by
  induction plist with
  | nil => simp [pmSumFrom, doseSumAll]
  | cons pr rest ih =>
      simp only [pmSumFrom, List.map_cons, List.sum_cons, doseSumAll,
        List.filter_cons] at *
      by_cases hc : (dosage.getD pr.1 (9, 0)).1 ≠ 9
      · have h1 : True ∧ 0 ≤ pr.1 ∧ (dosage.getD (pr.1 - 0) (9, 0)).1 ≠ 9 :=
          ⟨trivial, Nat.zero_le _, hc⟩
        have h2 : (decide ((dosage.getD pr.1 (9, 0)).1 ≠ 9)) = true := by
          rw [decide_eq_true_eq]; exact hc
        rw [if_pos h1, h2, ih]
        simp
      · have h1 : ¬ (True ∧ 0 ≤ pr.1 ∧ (dosage.getD (pr.1 - 0) (9, 0)).1 ≠ 9) :=
          fun h => hc h.2.2
        have h2 : (decide ((dosage.getD pr.1 (9, 0)).1 ≠ 9)) = false := by
          rw [decide_eq_false_iff_not]; exact hc
        rw [if_neg h1, h2, ih, zero_add]
        simp

theorem tallyOf_n (dosage : List (ℚ × ℚ)) (plist : List (ℕ × ℕ)) (k : ℕ) :
    (tallyOf dosage plist).n k = (infCountPop dosage plist k : ℚ) := by
  rw [tallyOf, tallyGo_char, ← pmSum_n_eq dosage plist k]
  show (0 : ℚ) + _ = _
  rw [zero_add]

theorem tallyOf_nsum (dosage : List (ℚ × ℚ)) (plist : List (ℕ × ℕ)) :
    (tallyOf dosage plist).n_sum = (infCountAll dosage plist : ℚ) := by
  rw [tallyOf, tallyGo_char, ← pmSum_nsum_eq dosage plist]
  show (0 : ℚ) + _ = _
  rw [zero_add]

theorem tallyOf_pbar (dosage : List (ℚ × ℚ)) (plist : List (ℕ × ℕ)) :
    (tallyOf dosage plist).pbar = doseSumAll dosage plist := by
  rw [tallyOf, tallyGo_char, ← pmSum_pbar_eq dosage plist]
  show (0 : ℚ) + _ = _
  rw [zero_add]

theorem pmSum_p_eq (dosage : List (ℚ × ℚ)) (plist : List (ℕ × ℕ)) (k : ℕ) :
    pmSumFrom plist (fun pr => pr.2 = k) (fun d => d.1) 0 dosage =
      doseSumPop dosage plist k := by
  induction plist with
  | nil => simp [pmSumFrom, doseSumPop]
  | cons pr rest ih =>
      simp only [pmSumFrom, List.map_cons, List.sum_cons, doseSumPop,
        List.filter_cons] at *
      by_cases hc : pr.2 = k ∧ (dosage.getD pr.1 (9, 0)).1 ≠ 9
      · have h1 : pr.2 = k ∧ 0 ≤ pr.1 ∧ (dosage.getD (pr.1 - 0) (9, 0)).1 ≠ 9 :=
          ⟨hc.1, Nat.zero_le _, hc.2⟩
        have h2 : (pr.2 == k && decide ((dosage.getD pr.1 (9, 0)).1 ≠ 9)) = true := by
          rw [Bool.and_eq_true, beq_iff_eq, decide_eq_true_eq]
          exact ⟨hc.1, hc.2⟩
        rw [if_pos h1, h2, ih]
        simp
      · have h1 : ¬ (pr.2 = k ∧ 0 ≤ pr.1 ∧ (dosage.getD (pr.1 - 0) (9, 0)).1 ≠ 9) :=
          fun h => hc ⟨h.1, h.2.2⟩
        have h2 : (pr.2 == k && decide ((dosage.getD pr.1 (9, 0)).1 ≠ 9)) = false := by
          by_contra hb
          rw [Bool.not_eq_false, Bool.and_eq_true, beq_iff_eq, decide_eq_true_eq] at hb
          exact hc hb
        rw [if_neg h1, h2, ih, zero_add]
        simp

theorem pmSum_hbar_eq (dosage : List (ℚ × ℚ)) (plist : List (ℕ × ℕ)) :
    pmSumFrom plist (fun _ => True) (fun d => d.2) 0 dosage =
      hetSumAll dosage plist := by
  induction plist with
  | nil => simp [pmSumFrom, hetSumAll]
  | cons pr rest ih =>
      simp only [pmSumFrom, List.map_cons, List.sum_cons, hetSumAll,
        List.filter_cons] at *
      by_cases hc : (dosage.getD pr.1 (9, 0)).1 ≠ 9
      · have h1 : True ∧ 0 ≤ pr.1 ∧ (dosage.getD (pr.1 - 0) (9, 0)).1 ≠ 9 :=
          ⟨trivial, Nat.zero_le _, hc⟩
        have h2 : (decide ((dosage.getD pr.1 (9, 0)).1 ≠ 9)) = true := by
          rw [decide_eq_true_eq]; exact hc
        rw [if_pos h1, h2, ih]
        simp
      · have h1 : ¬ (True ∧ 0 ≤ pr.1 ∧ (dosage.getD (pr.1 - 0) (9, 0)).1 ≠ 9) :=
          fun h => hc h.2.2
        have h2 : (decide ((dosage.getD pr.1 (9, 0)).1 ≠ 9)) = false := by
          rw [decide_eq_false_iff_not]; exact hc
        rw [if_neg h1, h2, ih, zero_add]
        simp

theorem tallyOf_p (dosage : List (ℚ × ℚ)) (plist : List (ℕ × ℕ)) (k : ℕ) :
    (tallyOf dosage plist).p k = doseSumPop dosage plist k := by
  rw [tallyOf, tallyGo_char, ← pmSum_p_eq dosage plist k]
  show (0 : ℚ) + _ = _
  rw [zero_add]

theorem tallyOf_hbar (dosage : List (ℚ × ℚ)) (plist : List (ℕ × ℕ)) :
    (tallyOf dosage plist).hbar = hetSumAll dosage plist := by
  rw [tallyOf, tallyGo_char, ← pmSum_hbar_eq dosage plist]
  show (0 : ℚ) + _ = _
  rw [zero_add]

/-- Population-major characterization of the sentinel: `estVars` returns
`none` exactly when the `ok`/`maf` gate of lines 507-512 fires or the
a/b/c block of lines 513-521 produces a NaN, all conditions restated
over the population-major recomputations of the first loop's sums. -/
theorem estVars_none_char (dosage : List (ℚ × ℚ)) (plist : List (ℕ × ℕ))
    (pop_n : ℕ) (min : ℤ) (maf : ℚ) :
    estVars dosage plist pop_n min maf = none ↔
      ((∃ k < pop_n, (infCountPop dosage plist k : ℚ) < (min : ℚ)) ∨
        dLt (dDiv (.fin (doseSumAll dosage plist))
          (.fin ((infCountAll dosage plist : ℚ) * 2))) (.fin maf) = true ∨
        dLt (dSub (.fin 1) (dDiv (.fin (doseSumAll dosage plist))
          (.fin ((infCountAll dosage plist : ℚ) * 2)))) (.fin maf) = true) ∨
      ((wcCore (fun k => doseSumPop dosage plist k)
          (fun k => (infCountPop dosage plist k : ℚ)) (doseSumAll dosage plist)
          (hetSumAll dosage plist) (infCountAll dosage plist : ℚ) pop_n).1.isNan = true ∨
        (wcCore (fun k => doseSumPop dosage plist k)
          (fun k => (infCountPop dosage plist k : ℚ)) (doseSumAll dosage plist)
          (hetSumAll dosage plist) (infCountAll dosage plist : ℚ) pop_n).2.1.isNan = true ∨
        (wcCore (fun k => doseSumPop dosage plist k)
          (fun k => (infCountPop dosage plist k : ℚ)) (doseSumAll dosage plist)
          (hetSumAll dosage plist) (infCountAll dosage plist : ℚ) pop_n).2.2.isNan = true) := by
  have hp : (tallyOf dosage plist).p = fun k => doseSumPop dosage plist k :=
    funext (tallyOf_p dosage plist)
  have hn : (tallyOf dosage plist).n = fun k => (infCountPop dosage plist k : ℚ) :=
    funext (tallyOf_n dosage plist)
  simp only [estVars, hp, hn, tallyOf_pbar, tallyOf_hbar, tallyOf_nsum, List.mem_range]
  by_cases h1 : (∃ k < pop_n, (infCountPop dosage plist k : ℚ) < (min : ℚ)) ∨
      dLt (dDiv (.fin (doseSumAll dosage plist))
        (.fin ((infCountAll dosage plist : ℚ) * 2))) (.fin maf) = true ∨
      dLt (dSub (.fin 1) (dDiv (.fin (doseSumAll dosage plist))
        (.fin ((infCountAll dosage plist : ℚ) * 2)))) (.fin maf) = true
  · rw [if_pos h1]
    simp [h1]
  · rw [if_neg h1]
    by_cases h2 : (wcCore (fun k => doseSumPop dosage plist k)
        (fun k => (infCountPop dosage plist k : ℚ)) (doseSumAll dosage plist)
        (hetSumAll dosage plist) (infCountAll dosage plist : ℚ) pop_n).1.isNan = true ∨
      (wcCore (fun k => doseSumPop dosage plist k)
        (fun k => (infCountPop dosage plist k : ℚ)) (doseSumAll dosage plist)
        (hetSumAll dosage plist) (infCountAll dosage plist : ℚ) pop_n).2.1.isNan = true ∨
      (wcCore (fun k => doseSumPop dosage plist k)
        (fun k => (infCountPop dosage plist k : ℚ)) (doseSumAll dosage plist)
        (hetSumAll dosage plist) (infCountAll dosage plist : ℚ) pop_n).2.2.isNan = true
    · rw [if_pos h2]
      simp [h2]
    · rw [if_neg h2]
      simp [h1, h2]

/-- C10: under the precondition `min ≥ 1`, whenever `estVars` returns a
non-sentinel result every population's informative-individual count
`n[k]` is at least `min`, hence positive — so the per-population
frequency division `p[k] / (n[k] * 2)` never divides by zero on a path
that produces a non-sentinel result. -/
theorem estVars_pos_counts (dosage : List (ℚ × ℚ)) (plist : List (ℕ × ℕ))
    (pop_n : ℕ) (min : ℤ) (maf : ℚ) (hmin : 1 ≤ min)
    (hsome : estVars dosage plist pop_n min maf ≠ none) :
    ∀ k < pop_n,
      (tallyOf dosage plist).n k = (infCountPop dosage plist k : ℚ) ∧
      (min : ℚ) ≤ (infCountPop dosage plist k : ℚ) ∧
      (infCountPop dosage plist k : ℚ) * 2 ≠ 0 := by
  intro k hk
  have hnotall : ¬ (∃ j ∈ List.range pop_n, (tallyOf dosage plist).n j < (min : ℚ)) := by
    intro h
    apply hsome
    simp only [estVars]
    rw [if_pos (Or.inl h)]
  have hge : (min : ℚ) ≤ (tallyOf dosage plist).n k := by
    by_contra hlt
    push_neg at hlt
    exact hnotall ⟨k, List.mem_range.2 hk, hlt⟩
  rw [tallyOf_n] at hge
  refine ⟨tallyOf_n dosage plist k, hge, ?_⟩
  have h1 : (1 : ℚ) ≤ (infCountPop dosage plist k : ℚ) := by
    calc (1 : ℚ) ≤ (min : ℚ) := by exact_mod_cast hmin
    _ ≤ _ := hge
  positivity

/-- Population-major sums of the regular two-column example (columns 0
and 1 both carry dosage pair `(1, 1)`; column 0 is in population 0,
column 1 in both populations), used by the Fst witnesses. -/
theorem wc_ok_vals :
    doseSumPop [(1, 1), (1, 1)] [(0, 0), (1, 0), (1, 1)] 0 = 2 ∧
    doseSumPop [(1, 1), (1, 1)] [(0, 0), (1, 0), (1, 1)] 1 = 1 ∧
    infCountPop [(1, 1), (1, 1)] [(0, 0), (1, 0), (1, 1)] 0 = 2 ∧
    infCountPop [(1, 1), (1, 1)] [(0, 0), (1, 0), (1, 1)] 1 = 1 ∧
    infCountAll [(1, 1), (1, 1)] [(0, 0), (1, 0), (1, 1)] = 3 ∧
    doseSumAll [(1, 1), (1, 1)] [(0, 0), (1, 0), (1, 1)] = 3 ∧
    hetSumAll [(1, 1), (1, 1)] [(0, 0), (1, 0), (1, 1)] = 3 := by
  refine ⟨?_, ?_, rfl, rfl, rfl, ?_, ?_⟩
  · show ([1, 1] : List ℚ).sum = 2
    norm_num
  · show ([1] : List ℚ).sum = 1
    norm_num
  · show ([1, 1, 1] : List ℚ).sum = 3
    norm_num
  · show ([1, 1, 1] : List ℚ).sum = 3
    norm_num

/-- On the regular example the sentinel does not fire: every population
count meets `min = 1`, the frequency is `1/2`, and `nbar = 3/2` keeps
all the Weir–Cockerham denominators nonzero, so `a`, `b`, `c` are
finite. -/
theorem estVars_ok_example :
    estVars [(1, 1), (1, 1)] [(0, 0), (1, 0), (1, 1)] 2 1 0 ≠ none := by
  obtain ⟨hd0, hd1, hic0, hic1, hall, hdose, hhet⟩ := wc_ok_vals
  have hr2 : List.range 2 = [0, 1] := by decide
  rw [Ne, estVars_none_char]
  rintro ((⟨k, hk, hlt⟩ | hlt | hlt) | (hnan | hnan | hnan))
  · interval_cases k
    · rw [hic0] at hlt
      norm_num at hlt
    · rw [hic1] at hlt
      norm_num at hlt
  · rw [hdose, hall] at hlt
    norm_num [dDiv, dLt] at hlt
  · rw [hdose, hall] at hlt
    norm_num [dDiv, dSub, dAdd, dNeg, dLt] at hlt
  · simp only [wcCore, hr2, List.map_cons, List.map_nil, List.sum_cons, List.sum_nil,
      List.foldl_cons, List.foldl_nil, hd0, hd1, hic0, hic1, hall, hdose, hhet] at hnan
    norm_num [dDiv, dMul, dAdd, dSub, dNeg, DVal.isNan] at hnan
  · simp only [wcCore, hr2, List.map_cons, List.map_nil, List.sum_cons, List.sum_nil,
      List.foldl_cons, List.foldl_nil, hd0, hd1, hic0, hic1, hall, hdose, hhet] at hnan
    norm_num [dDiv, dMul, dAdd, dSub, dNeg, DVal.isNan] at hnan
  · simp only [wcCore, hr2, List.map_cons, List.map_nil, List.sum_cons, List.sum_nil,
      List.foldl_cons, List.foldl_nil, hd0, hd1, hic0, hic1, hall, hdose, hhet] at hnan
    norm_num [dDiv, dMul, dAdd, dSub, dNeg, DVal.isNan] at hnan

/-- Witness for `estVars_pos_counts`: two Beagle columns, the first in
population 0 only and the second in both populations, `min = 1`,
`maf = 0`; `estVars` does not return the sentinel and the counts are
positive. -/
theorem estVars_pos_counts_witness :
    (1 : ℚ) ≤ (infCountPop [(1, 1), (1, 1)] [(0, 0), (1, 0), (1, 1)] 0 : ℚ) ∧
    (infCountPop [(1, 1), (1, 1)] [(0, 0), (1, 0), (1, 1)] 0 : ℚ) * 2 ≠ 0 := by
  have h := estVars_pos_counts [(1, 1), (1, 1)] [(0, 0), (1, 0), (1, 1)] 2 1 0 le_rfl
    estVars_ok_example 0 (by norm_num)
  exact ⟨by exact_mod_cast h.2.1, h.2.2⟩

/-! ## The streaming sorted-interval join of `probs2pi.c` / `probs2fst.c`

The forward scan, the backward rewind scans and the qualification
pre-scan below are letter-for-letter identical between
`probs2pi.c:205-296` and `probs2fst.c:339-437` (only the accumulator
payload differs), so they are embedded once.  Chromosome names, compared
with `strcmp` in C, are abstracted to `ℕ` with its linear order. -/

/-- Static fields of `Gene_s` (`probs2pi.c:48-52`, `probs2fst.c:49-53`);
`stop` stands for the C field `end`, a Lean keyword. -/
structure Gene_s where
  chr : ℕ
  start : ℤ
  stop : ℤ
  str : Char
deriving Repr, DecidableEq

instance : Inhabited Gene_s := ⟨⟨0, 0, 0, '+'⟩⟩

/-- The backward rewind scan of `probs2pi.c:262-273` (identical at
`probs2fst.c:404-417`), entered when the forward loop hits
`pos < genes[i].start - bp`: `k = i`, then for `j = 1 .. i` the rewind
index `k` is pulled back to `i - j` whenever that gene's flanked window
contains `pos`; the loop breaks when the gene at `i - j` lies below the
window (`pos > end + bp`) and so does its predecessor (`i - j - 1 >= 0`
and `pos > genes[i-j-1].end + bp`, or there is no predecessor). -/
def backScan (genes : List Gene_s) (p bp : ℤ) (i : ℕ) (k j : ℕ) : ℕ :=
  if h : j ≤ i then
    let g := genes.getD (i - j) default
    if p ≤ g.stop + bp ∧ p ≥ g.start - bp then
      backScan genes p bp i (i - j) (j + 1)
    else if p > g.stop + bp then
      if 1 ≤ i - j then
        if p > (genes.getD (i - j - 1) default).stop + bp then k
        else backScan genes p bp i k (j + 1)
      else k
    else backScan genes p bp i k (j + 1)
  else k
termination_by i + 1 - j

/-- The chromosome-aware backward rewind scan of `probs2pi.c:277-291`
(identical at `probs2fst.c:419-434`), entered when the forward loop hits
a gene whose chromosome sorts after the site's: same coordinate logic on
same-chromosome genes, skipping genes of later chromosomes, breaking on a
gene of an earlier chromosome. -/
def backScanChr (genes : List Gene_s) (c : ℕ) (p bp : ℤ) (i : ℕ) (k j : ℕ) : ℕ :=
  if h : j ≤ i then
    let g := genes.getD (i - j) default
    if c = g.chr then
      if p ≤ g.stop + bp ∧ p ≥ g.start - bp then
        backScanChr genes c p bp i (i - j) (j + 1)
      else if p > g.stop + bp then
        if 1 ≤ i - j then
          if p > (genes.getD (i - j - 1) default).stop + bp then k
          else backScanChr genes c p bp i k (j + 1)
        else k
      else backScanChr genes c p bp i k (j + 1)
    else if g.chr < c then k
    else backScanChr genes c p bp i k (j + 1)
  else k
termination_by i + 1 - j

/-- The forward aggregation scan `for(i = k; i < gene_n; i++)` of
`probs2pi.c:242-294` (identical at `probs2fst.c:380-437`) for one site
`(c, p)`: returns the list of gene indices whose accumulators receive a
contribution, and the value of the rewind index `k` after the loop. -/
def siteLoop (genes : List Gene_s) (c : ℕ) (p bp : ℤ) (i k : ℕ) : List ℕ × ℕ :=
  if h : i < genes.length then
    let g := genes.getD i default
    if c = g.chr then
      if p ≤ g.stop + bp ∧ p ≥ g.start - bp then
        let r := siteLoop genes c p bp (i + 1) k
        (i :: r.1, r.2)
      else if p < g.start - bp then
        ([], backScan genes p bp i i 1)
      else
        siteLoop genes c p bp (i + 1) k
    else if c < g.chr then
      ([], backScanChr genes c p bp i i 1)
    else
      siteLoop genes c p bp (i + 1) k
  else ([], k)
termination_by genes.length - i

/-- The qualification pre-scan `while(gene_i < gene_n)` of
`probs2pi.c:205-220` (identical at `probs2fst.c:339-354`): advances its
own persistent cursor `gene_i`, reporting whether the site lies in some
flanked window. -/
def preFilter (genes : List Gene_s) (c : ℕ) (p bp : ℤ) (gi : ℕ) : Bool × ℕ :=
  if h : gi < genes.length then
    let g := genes.getD gi default
    if c = g.chr then
      if p ≤ g.stop + bp ∧ p ≥ g.start - bp then (true, gi)
      else if p < g.start - bp then (false, gi)
      else preFilter genes c p bp (gi + 1)
    else if c < g.chr then (false, gi)
    else preFilter genes c p bp (gi + 1)
  else (false, gi)
termination_by genes.length - gi

/-- Brute-force reference join (spec §8): all catalog indices whose
flanked window contains the site. -/
def bruteMatches (genes : List Gene_s) (c : ℕ) (p bp : ℤ) : List ℕ :=
  (List.range genes.length).filter fun i =>
    decide ((genes.getD i default).chr = c ∧
      p ≤ (genes.getD i default).stop + bp ∧ p ≥ (genes.getD i default).start - bp)

/-- The three aggregation bins of a region. -/
inductive Bin
  | up
  | cds
  | down
deriving Repr, DecidableEq

/-- The strand-aware bin routing of `probs2pi.c:245-260`
(`probs2fst.c:383-403`): the four flank cases in source order, everything
else falling into the body (`cds`) bin. -/
def binOf (g : Gene_s) (p : ℤ) : Bin :=
  if p < g.start ∧ g.str = '+' then Bin.up
  else if p < g.start ∧ g.str = '-' then Bin.down
  else if p > g.stop ∧ g.str = '+' then Bin.down
  else if p > g.stop ∧ g.str = '-' then Bin.up
  else Bin.cds

/-- `Theta_s` of `probs2pi.c:43-46`: per-bin site count and running θπ sum. -/
structure Theta_s where
  L : ℤ
  tP : ℚ
deriving Repr, DecidableEq

/-- The three per-gene bins of `probs2pi.c`'s `Gene_s`. -/
structure PiAcc where
  up : Theta_s
  cds : Theta_s
  down : Theta_s
deriving Repr, DecidableEq

def piAcc0 : PiAcc := ⟨⟨0, 0⟩, ⟨0, 0⟩, ⟨0, 0⟩⟩

instance : Inhabited PiAcc := ⟨piAcc0⟩

/-- One accumulator update `tP += 2*p*(1-p); L++`. -/
def bumpTheta (t : Theta_s) (v : ℚ) : Theta_s := ⟨t.L + 1, t.tP + v⟩

def bumpPiAcc (a : PiAcc) (b : Bin) (v : ℚ) : PiAcc :=
  match b with
  | Bin.up => { a with up := bumpTheta a.up v }
  | Bin.cds => { a with cds := bumpTheta a.cds v }
  | Bin.down => { a with down := bumpTheta a.down v }

/-- Apply the per-site updates of `probs2pi.c:244-260` to every matched
gene index. -/
def applyPi (genes : List Gene_s) (p : ℤ) (v : ℚ) (accs : List PiAcc)
    (ms : List ℕ) : List PiAcc :=
  ms.foldl
    (fun accs i =>
      accs.set i (bumpPiAcc (accs.getD i piAcc0) (binOf (genes.getD i default) p) v))
    accs

/-- One parsed Beagle site line: `chr`, `pos` (split from the `chr_pos`
marker) and the genotype-probability triplets. -/
structure Site where
  chr : ℕ
  pos : ℤ
  probs : List (ℚ × ℚ × ℚ)
deriving Repr, DecidableEq

/-- The streaming state of `probs2pi.c`'s `readBeagle` in genes mode: the
per-gene accumulators, the rewind index `k` and the pre-scan cursor
`gene_i`. -/
structure PiState where
  accs : List PiAcc
  k : ℕ
  gi : ℕ
deriving Repr, DecidableEq

/-- One iteration of the `readBeagle` line loop of `probs2pi.c` (genes
mode, `gene_n > 0`): pre-scan (lines 205-220), then the Pi reducer
(221-240), then the aggregation scan (242-294).  Besides the new state it
returns the list of gene indices that received a contribution. -/
def piStep (genes : List Gene_s) (bp : ℤ) (min : ℤ) (st : PiState) (s : Site) :
    PiState × List ℕ :=
  let fr := preFilter genes s.chr s.pos bp st.gi
  if fr.1 = false then ({ st with gi := fr.2 }, [])
  else
    match piSite s.probs min with
    | none => ({ st with gi := fr.2 }, [])
    | some v =>
        let r := siteLoop genes s.chr s.pos bp st.k st.k
        ({ accs := applyPi genes s.pos v st.accs r.1, k := r.2, gi := fr.2 }, r.1)

/-- The whole line loop over a site stream, collecting each site's list
of contributed gene indices. -/
def piRun (genes : List Gene_s) (bp min : ℤ) :
    PiState → List Site → PiState × List (List ℕ)
  | st, [] => (st, [])
  | st, s :: ss =>
      let r := piStep genes bp min st s
      let rest := piRun genes bp min r.1 ss
      (rest.1, r.2 :: rest.2)

/-- Initial state: zeroed accumulators (`memset` in `readGenes`), cursors
at the start of the catalog. -/
def piState0 (genes : List Gene_s) : PiState :=
  ⟨List.replicate genes.length piAcc0, 0, 0⟩

/-! ## `probs2fst.c` driver pieces needed for the sentinel-exclusion claim -/

/-- Per-bin accumulator of `probs2fst.c`'s `Gene_s` (`Var_s` plus the
site count `n`). -/
structure FstVar where
  n : ℤ
  hw : ℚ
  hb : ℚ
deriving Repr, DecidableEq

structure FstAcc where
  up : FstVar
  cds : FstVar
  down : FstVar
deriving Repr, DecidableEq

def fstAcc0 : FstAcc := ⟨⟨0, 0, 0⟩, ⟨0, 0, 0⟩, ⟨0, 0, 0⟩⟩

instance : Inhabited FstAcc := ⟨fstAcc0⟩

def bumpFstVar (a : FstVar) (v : Var_s) : FstVar := ⟨a.n + 1, a.hw + v.hw, a.hb + v.hb⟩

def bumpFstAcc (a : FstAcc) (b : Bin) (v : Var_s) : FstAcc :=
  match b with
  | Bin.up => { a with up := bumpFstVar a.up v }
  | Bin.cds => { a with cds := bumpFstVar a.cds v }
  | Bin.down => { a with down := bumpFstVar a.down v }

def applyFst (genes : List Gene_s) (p : ℤ) (v : Var_s) (accs : List FstAcc)
    (ms : List ℕ) : List FstAcc :=
  ms.foldl
    (fun accs i =>
      accs.set i (bumpFstAcc (accs.getD i fstAcc0) (binOf (genes.getD i default) p) v))
    accs

/-- Dosage extraction of `probs2fst.c:355-371`: an informative triplet
yields `(prob[1] + 2*prob[2], prob[1])`, a missing one gets the sentinel
`dosage[k][0] = 9` (its second component is never read by `estVars`). -/
def mkDosage (probs : List (ℚ × ℚ × ℚ)) : List (ℚ × ℚ) :=
  probs.map fun t => if informative t then (t.2.1 + 2 * t.2.2, t.2.1) else (9, 0)

structure FstState where
  accs : List FstAcc
  k : ℕ
  gi : ℕ
deriving Repr, DecidableEq

/-- One iteration of `probs2fst.c`'s `readBeagle` line loop in genes
mode: pre-scan (339-354), `estVars` (372-373), the `isnan` skip (374-375)
and the aggregation scan (380-437); second component is the per-site
reduced value (`none` when the site is skipped). -/
def fstStep (genes : List Gene_s) (bp : ℤ) (plist : List (ℕ × ℕ)) (pop_n : ℕ)
    (min : ℤ) (maf : ℚ) (st : FstState) (s : Site) : FstState × Option Var_s :=
  let fr := preFilter genes s.chr s.pos bp st.gi
  if fr.1 = false then ({ st with gi := fr.2 }, none)
  else
    match estVars (mkDosage s.probs) plist pop_n min maf with
    | none => ({ st with gi := fr.2 }, none)
    | some v =>
        let r := siteLoop genes s.chr s.pos bp st.k st.k
        ({ accs := applyFst genes s.pos v st.accs r.1, k := r.2, gi := fr.2 }, some v)

/-- Population-major sums of the degenerate example (one Beagle column
with dosage pair `(1, 1)` listed in both populations), used by the Fst
counterexample and witness. -/
theorem wc_bad_vals :
    doseSumPop [(1, 1)] [(0, 0), (0, 1)] 0 = 1 ∧
    doseSumPop [(1, 1)] [(0, 0), (0, 1)] 1 = 1 ∧
    infCountPop [(1, 1)] [(0, 0), (0, 1)] 0 = 1 ∧
    infCountPop [(1, 1)] [(0, 0), (0, 1)] 1 = 1 ∧
    infCountAll [(1, 1)] [(0, 0), (0, 1)] = 2 ∧
    doseSumAll [(1, 1)] [(0, 0), (0, 1)] = 2 ∧
    hetSumAll [(1, 1)] [(0, 0), (0, 1)] = 2 := by
  refine ⟨?_, ?_, rfl, rfl, rfl, ?_, ?_⟩
  · show ([1] : List ℚ).sum = 1
    norm_num
  · show ([1] : List ℚ).sum = 1
    norm_num
  · show ([1, 1] : List ℚ).sum = 2
    norm_num
  · show ([1, 1] : List ℚ).sum = 2
    norm_num

/-- On the degenerate example `nbar == 1`, the inner numerator of `a` is
exactly `0`, and `0.0/0.0` propagates NaN into `a`
(`probs2fst.c:517`). -/
theorem wc_bad_nan :
    (wcCore (fun k => doseSumPop [(1, 1)] [(0, 0), (0, 1)] k)
      (fun k => (infCountPop [(1, 1)] [(0, 0), (0, 1)] k : ℚ))
      (doseSumAll [(1, 1)] [(0, 0), (0, 1)]) (hetSumAll [(1, 1)] [(0, 0), (0, 1)])
      (infCountAll [(1, 1)] [(0, 0), (0, 1)] : ℚ) 2).1.isNan = true := by
  obtain ⟨hd0, hd1, hic0, hic1, hall, hdose, hhet⟩ := wc_bad_vals
  have hr2 : List.range 2 = [0, 1] := by decide
  simp only [wcCore, hr2, List.map_cons, List.map_nil, List.sum_cons, List.sum_nil,
    List.foldl_cons, List.foldl_nil, hd0, hd1, hic0, hic1, hall, hdose, hhet]
  norm_num [dDiv, dMul, dAdd, dSub, dNeg, DVal.isNan]

/-- C3 counterexample: with `min = 1`, both populations at exactly `min`
informative individuals and a combined frequency `1/2` that passes
`maf = 0`, `estVars` still returns the not-a-number sentinel: every
population being exactly at the minimum makes `nbar == 1`, the inner
numerator of `a` is exactly `0.0`, the division by `nbar - 1.0` at
`probs2fst.c:517` is `0.0/0.0 = NaN`, and the `isnan` re-check at lines
520-521 fires — so `== min` does not guarantee that the sentinel is not
triggered. -/
theorem equal_min_still_sentinel :
    infCountPop [(1, 1)] [(0, 0), (0, 1)] 0 = 1 ∧
    infCountPop [(1, 1)] [(0, 0), (0, 1)] 1 = 1 ∧
    doseSumAll [(1, 1)] [(0, 0), (0, 1)] /
      ((infCountAll [(1, 1)] [(0, 0), (0, 1)] : ℚ) * 2) = 1 / 2 ∧
    estVars [(1, 1)] [(0, 0), (0, 1)] 2 1 0 = none := by
  obtain ⟨-, -, hic0, hic1, hall, hdose, -⟩ := wc_bad_vals
  refine ⟨hic0, hic1, ?_, ?_⟩
  · rw [hdose, hall]
    norm_num
  · rw [estVars_none_char]
    exact Or.inr (Or.inl wc_bad_nan)

/-- C3 (amended): `estVars` returns the not-a-number sentinel exactly
when some population has fewer than `min` informative individuals, the
combined allele frequency `pbar` (or `1 - pbar`) is below `maf` under
IEEE comparison, or the Weir–Cockerham components `a`, `b`, `c` come out
NaN (degenerate denominators such as `nbar == 1`, caught by the `isnan`
re-check of `probs2fst.c:520-521`; `equal_min_still_sentinel` shows this
branch can fire even with every population at `== min`, so the original
"`== min` passes" clause is false); and a site whose reduction is the
sentinel is excluded from the per-site output and from every gene
accumulator (the driver state is unchanged except for the pre-scan
cursor). -/
theorem estVars_sentinel (dosage : List (ℚ × ℚ)) (plist : List (ℕ × ℕ))
    (pop_n : ℕ) (min : ℤ) (maf : ℚ) :
    (estVars dosage plist pop_n min maf = none ↔
      ((∃ k < pop_n, (infCountPop dosage plist k : ℚ) < (min : ℚ)) ∨
        dLt (dDiv (.fin (doseSumAll dosage plist))
          (.fin ((infCountAll dosage plist : ℚ) * 2))) (.fin maf) = true ∨
        dLt (dSub (.fin 1) (dDiv (.fin (doseSumAll dosage plist))
          (.fin ((infCountAll dosage plist : ℚ) * 2)))) (.fin maf) = true) ∨
      ((wcCore (fun k => doseSumPop dosage plist k)
          (fun k => (infCountPop dosage plist k : ℚ)) (doseSumAll dosage plist)
          (hetSumAll dosage plist) (infCountAll dosage plist : ℚ) pop_n).1.isNan = true ∨
        (wcCore (fun k => doseSumPop dosage plist k)
          (fun k => (infCountPop dosage plist k : ℚ)) (doseSumAll dosage plist)
          (hetSumAll dosage plist) (infCountAll dosage plist : ℚ) pop_n).2.1.isNan = true ∨
        (wcCore (fun k => doseSumPop dosage plist k)
          (fun k => (infCountPop dosage plist k : ℚ)) (doseSumAll dosage plist)
          (hetSumAll dosage plist) (infCountAll dosage plist : ℚ) pop_n).2.2.isNan = true)) ∧
    (∀ (genes : List Gene_s) (bp : ℤ) (st : FstState) (s : Site),
      estVars (mkDosage s.probs) plist pop_n min maf = none →
      fstStep genes bp plist pop_n min maf st s =
        ({ st with gi := (preFilter genes s.chr s.pos bp st.gi).2 }, none)) := by
  constructor
  · exact estVars_none_char dosage plist pop_n min maf
  · intro genes bp st s hnone
    by_cases hfr : (preFilter genes s.chr s.pos bp st.gi).1 = false
    · simp [fstStep, hfr]
    · simp [fstStep, hfr, hnone]

/-- Witness for `estVars_sentinel`: on the degenerate one-column example
`min = 2` trips the count branch of the sentinel (`== min - 1` fails) and
the sentinel site leaves the `probs2fst` driver state untouched; on the
regular two-column example (`nbar = 3/2`) `min = 1` is met and no branch
fires, so the sentinel is not returned. -/
theorem estVars_sentinel_witness :
    estVars [(1, 1)] [(0, 0), (0, 1)] 2 2 0 = none ∧
    estVars [(1, 1), (1, 1)] [(0, 0), (1, 0), (1, 1)] 2 1 0 ≠ none ∧
    fstStep [⟨1, 1, 10, '+'⟩] 0 [(0, 0), (0, 1)] 2 2 0 ⟨[fstAcc0], 0, 0⟩ ⟨1, 5, [(0, 1, 0)]⟩ =
      (⟨[fstAcc0], 0, 0⟩, none) := by
  obtain ⟨-, -, hic0, -, -, -, -⟩ := wc_bad_vals
  have hinf : informative (0, 1, 0) = true := by
    have h0 : (0 : ℚ) ≠ NAq := by norm_num [NAq]
    have h1 : (1 : ℚ) ≠ NAq := by norm_num [NAq]
    simp [informative, missOr, neqBit, h0, h1]
    try decide
  have hmk : mkDosage [(0, 1, 0)] = [(1, 1)] := by
    simp [mkDosage, hinf]
    try norm_num
  have hnone2 : estVars [(1, 1)] [(0, 0), (0, 1)] 2 2 0 = none := by
    refine (estVars_sentinel [(1, 1)] [(0, 0), (0, 1)] 2 2 0).1.2
      (Or.inl (Or.inl ⟨0, ?_, ?_⟩))
    · norm_num
    · rw [hic0]
      norm_num
  refine ⟨hnone2, estVars_ok_example, ?_⟩
  have h := (estVars_sentinel (mkDosage [(0, 1, 0)]) [(0, 0), (0, 1)] 2 2 0).2
    [⟨1, 1, 10, '+'⟩] 0 ⟨[fstAcc0], 0, 0⟩ ⟨1, 5, [(0, 1, 0)]⟩ (by rw [hmk]; exact hnone2)
  rw [h]
  have hpf : (preFilter [⟨1, 1, 10, '+'⟩] 1 5 0 0).2 = 0 := by
    simp [preFilter]
    try norm_num
  rw [hpf]

/-- C4: for a site associated with a region, its contribution is routed
to the upstream bin iff (`pos < start` and `+`) or (`pos > end` and `-`),
to the downstream bin iff (`pos < start` and `-`) or (`pos > end` and
`+`), and otherwise (`start ≤ pos ≤ end`, either strand) to the body
(`cds`) bin. -/
theorem binOf_routing (g : Gene_s) (p bp : ℤ)
    (hstr : g.str = '+' ∨ g.str = '-') (hse : g.start ≤ g.stop)
    (hass : g.start - bp ≤ p ∧ p ≤ g.stop + bp) :
    (binOf g p = Bin.up ↔ ((p < g.start ∧ g.str = '+') ∨ (g.stop < p ∧ g.str = '-'))) ∧
    (binOf g p = Bin.down ↔ ((p < g.start ∧ g.str = '-') ∨ (g.stop < p ∧ g.str = '+'))) ∧
    (binOf g p = Bin.cds ↔ (g.start ≤ p ∧ p ≤ g.stop)) := by
  have hpm : ('+' : Char) ≠ '-' := by decide
  have hmp : ('-' : Char) ≠ '+' := by decide
  rcases hstr with h | h <;>
    by_cases h1 : p < g.start <;> by_cases h2 : g.stop < p <;>
      simp [binOf, h, h1, h2, hpm, hmp] <;> omega

/-- Witness for `binOf_routing`: concrete routing on both strands. -/
theorem binOf_routing_witness :
    binOf ⟨1, 100, 200, '+'⟩ 50 = Bin.up ∧
    binOf ⟨1, 100, 200, '-'⟩ 50 = Bin.down ∧
    binOf ⟨1, 100, 200, '+'⟩ 150 = Bin.cds := by
  refine ⟨?_, ?_, ?_⟩
  · exact (binOf_routing ⟨1, 100, 200, '+'⟩ 50 150 (Or.inl rfl) (by norm_num)
      (by constructor <;> norm_num)).1.2 (Or.inl ⟨by norm_num, rfl⟩)
  · exact (binOf_routing ⟨1, 100, 200, '-'⟩ 50 150 (Or.inr rfl) (by norm_num)
      (by constructor <;> norm_num)).2.1.2 (Or.inl ⟨by norm_num, rfl⟩)
  · exact (binOf_routing ⟨1, 100, 200, '+'⟩ 150 150 (Or.inl rfl) (by norm_num)
      (by constructor <;> norm_num)).2.2.2 ⟨by norm_num, by norm_num⟩

/-! ## Concrete runs of the `probs2pi` driver -/

theorem informative_010 : informative (0, 1, 0) = true := by
  have h0 : (0 : ℚ) ≠ NAq := by norm_num [NAq]
  have h1 : (1 : ℚ) ≠ NAq := by norm_num [NAq]
  simp [informative, missOr, neqBit, h0, h1]
  try decide

theorem piSite_010 : piSite [(0, 1, 0)] 1 = some (1 / 2) := by
  simp [piSite, piAccum, informative_010]
  norm_num

/-- Two adjacent `+`-strand regions whose `bp = 150` flanks overlap at
position 260 (the spec's §8 boundary scenario). -/
def c6_genes : List Gene_s := [⟨1, 100, 200, '+'⟩, ⟨1, 300, 400, '+'⟩]

/-- C6: a site lying in both region A's downstream flank and region B's
upstream flank contributes to both regions' accumulators — the cursor
reports both indices and each bin count is incremented. -/
theorem site_in_two_flanks_counts_twice :
    (piRun c6_genes 150 1 (piState0 c6_genes) [⟨1, 260, [(0, 1, 0)]⟩]).2 = [[0, 1]] ∧
    ((piRun c6_genes 150 1 (piState0 c6_genes)
      [⟨1, 260, [(0, 1, 0)]⟩]).1.accs.getD 0 piAcc0).down.L = 1 ∧
    ((piRun c6_genes 150 1 (piState0 c6_genes)
      [⟨1, 260, [(0, 1, 0)]⟩]).1.accs.getD 1 piAcc0).up.L = 1 := by
  have hpre : preFilter [⟨1, 100, 200, '+'⟩, ⟨1, 300, 400, '+'⟩] 1 260 150 0 = (true, 0) := by
    simp [preFilter]
  have hsl : siteLoop [⟨1, 100, 200, '+'⟩, ⟨1, 300, 400, '+'⟩] 1 260 150 0 0 = ([0, 1], 0) := by
    simp [siteLoop, backScan, backScanChr]
  have hb0 : binOf ⟨1, 100, 200, '+'⟩ 260 = Bin.down := by
    simp [binOf]
  have hb1 : binOf ⟨1, 300, 400, '+'⟩ 260 = Bin.up := by
    simp [binOf]
  simp [piRun, piStep, piState0, hpre, hsl, piSite_010, applyPi, c6_genes,
    hb0, hb1, bumpPiAcc, bumpTheta, piAcc0]

/-- A sorted catalog with a long region that strictly contains the two
following short regions (nested intervals). -/
def nst_genes : List Gene_s :=
  [⟨1, 1, 1000, '+'⟩, ⟨1, 100, 110, '+'⟩, ⟨1, 120, 130, '+'⟩, ⟨1, 500, 600, '+'⟩]

/-- C1 counterexample: on the nested-interval catalog `nst_genes` (sorted
by chromosome then start) with the sorted qualifying stream
`140, 300` and `bp = 0`, the backward rewind after site 140 stops at two
consecutive dead short regions and leaves `k = 3`, so site 300 — which
brute force associates with region 0, the enclosing `[1,1000]` region —
contributes to no region at all: the cursor's match set `[]` differs from
the brute-force set `[0]`. -/
theorem cursor_misses_nested_region :
    piSite [(0, 1, 0)] 1 = some (1 / 2) ∧
    bruteMatches nst_genes 1 300 0 = [0] ∧
    (piRun nst_genes 0 1 (piState0 nst_genes)
      [⟨1, 140, [(0, 1, 0)]⟩, ⟨1, 300, [(0, 1, 0)]⟩]).2 = [[0], []] := by
  have hpre1 : preFilter [⟨1, 1, 1000, '+'⟩, ⟨1, 100, 110, '+'⟩, ⟨1, 120, 130, '+'⟩, ⟨1, 500, 600, '+'⟩] 1 140 0 0 = (true, 0) := by
    simp [preFilter]
  have hpre2 : preFilter [⟨1, 1, 1000, '+'⟩, ⟨1, 100, 110, '+'⟩, ⟨1, 120, 130, '+'⟩, ⟨1, 500, 600, '+'⟩] 1 300 0 0 = (true, 0) := by
    simp [preFilter]
  have hsl1 : siteLoop [⟨1, 1, 1000, '+'⟩, ⟨1, 100, 110, '+'⟩, ⟨1, 120, 130, '+'⟩, ⟨1, 500, 600, '+'⟩] 1 140 0 0 0 = ([0], 3) := by
    simp [siteLoop, backScan, backScanChr]
  have hsl2 : siteLoop [⟨1, 1, 1000, '+'⟩, ⟨1, 100, 110, '+'⟩, ⟨1, 120, 130, '+'⟩, ⟨1, 500, 600, '+'⟩] 1 300 0 3 3 = ([], 3) := by
    simp [siteLoop, backScan, backScanChr]
  refine ⟨piSite_010, ?_, ?_⟩
  · simp [bruteMatches, nst_genes, List.filter]
  · simp [piRun, piStep, piState0, hpre1, hpre2, hsl1, hsl2, piSite_010, nst_genes]

/-- C8 counterexample: on the same nested-interval catalog, processing
the qualifying site 140 twice leaves region 0's body count at `1`, not
`2`: the first occurrence contributes (and rewinds `k` past region 0),
the duplicate occurrence contributes nothing, so the accumulator is not
doubled. -/
theorem duplicate_line_not_doubled :
    ((piRun nst_genes 0 1 (piState0 nst_genes)
      [⟨1, 140, [(0, 1, 0)]⟩]).1.accs.getD 0 piAcc0).cds.L = 1 ∧
    ((piRun nst_genes 0 1 (piState0 nst_genes)
      [⟨1, 140, [(0, 1, 0)]⟩, ⟨1, 140, [(0, 1, 0)]⟩]).1.accs.getD 0 piAcc0).cds.L = 1 := by
  have hpre1 : preFilter [⟨1, 1, 1000, '+'⟩, ⟨1, 100, 110, '+'⟩, ⟨1, 120, 130, '+'⟩, ⟨1, 500, 600, '+'⟩] 1 140 0 0 = (true, 0) := by
    simp [preFilter]
  have hsl1 : siteLoop [⟨1, 1, 1000, '+'⟩, ⟨1, 100, 110, '+'⟩, ⟨1, 120, 130, '+'⟩, ⟨1, 500, 600, '+'⟩] 1 140 0 0 0 = ([0], 3) := by
    simp [siteLoop, backScan, backScanChr]
  have hsl2 : siteLoop [⟨1, 1, 1000, '+'⟩, ⟨1, 100, 110, '+'⟩, ⟨1, 120, 130, '+'⟩, ⟨1, 500, 600, '+'⟩] 1 140 0 3 3 = ([], 3) := by
    simp [siteLoop, backScan, backScanChr]
  have hb0 : binOf ⟨1, 1, 1000, '+'⟩ 140 = Bin.cds := by
    simp [binOf]
  constructor <;>
    simp [piRun, piStep, piState0, hpre1, hsl1, hsl2, piSite_010, applyPi,
      nst_genes, hb0, bumpPiAcc, bumpTheta, piAcc0]

/-! ## Correctness of the join under a non-nested sorted catalog

`cursor_misses_nested_region` shows that brute-force equality fails for a
general sorted catalog.  Below it is proved for catalogs whose per-
chromosome `end` coordinates are also nondecreasing (no region strictly
containing a later one), the weakest repair the counterexample leaves. -/

/-- A site `(c, p)` is (brute-force) associated with catalog index `j`. -/
def Match (genes : List Gene_s) (c : ℕ) (p bp : ℤ) (j : ℕ) : Prop :=
  j < genes.length ∧ (genes.getD j default).chr = c ∧
    p ≤ (genes.getD j default).stop + bp ∧ p ≥ (genes.getD j default).start - bp

instance (genes : List Gene_s) (c : ℕ) (p bp : ℤ) (j : ℕ) :
    Decidable (Match genes c p bp j) := by
  unfold Match
  infer_instance

/-- Cursor-state invariant: every catalog index below the cursor is dead
for the current and all later stream keys — its chromosome sorts before
the site's, or it is on the site's chromosome with its flanked window
entirely below the site's position. -/
def InvK (genes : List Gene_s) (bp : ℤ) (c : ℕ) (p : ℤ) (k : ℕ) : Prop :=
  ∀ h, h < k → h < genes.length →
    (genes.getD h default).chr < c ∨
    ((genes.getD h default).chr = c ∧ (genes.getD h default).stop + bp < p)

/-- The catalog order assumed by the amended join claim: nondecreasing
chromosome, and within a chromosome nondecreasing `start` (the sort the
tools require) and nondecreasing `end` (the no-nesting amendment). -/
def SortedCatalog (genes : List Gene_s) : Prop :=
  List.Pairwise
    (fun a b => a.chr < b.chr ∨ (a.chr = b.chr ∧ a.start ≤ b.start ∧ a.stop ≤ b.stop))
    genes

/-- The stream order: lexicographically nondecreasing `(chr, pos)` keys. -/
def SortedStream (sites : List Site) : Prop :=
  List.Pairwise
    (fun s1 s2 => s1.chr < s2.chr ∨ (s1.chr = s2.chr ∧ s1.pos ≤ s2.pos))
    sites

theorem sorted_get {genes : List Gene_s} (hsort : SortedCatalog genes)
    {i j : ℕ} (hij : i ≤ j) (hj : j < genes.length) :
    (genes.getD i default).chr ≤ (genes.getD j default).chr ∧
    ((genes.getD i default).chr = (genes.getD j default).chr →
      (genes.getD i default).start ≤ (genes.getD j default).start ∧
      (genes.getD i default).stop ≤ (genes.getD j default).stop) := by
  rcases eq_or_lt_of_le hij with rfl | hlt
  · exact ⟨le_refl _, fun _ => ⟨le_refl _, le_refl _⟩⟩
  · have hi : i < genes.length := lt_trans hlt hj
    have hR := List.pairwise_iff_get.1 hsort ⟨i, hi⟩ ⟨j, hj⟩ hlt
    rw [List.getD_eq_get genes default hi, List.getD_eq_get genes default hj]
    rcases hR with hc | ⟨hc, hs, he⟩
    · exact ⟨le_of_lt hc, fun heq => absurd heq (ne_of_lt hc)⟩
    · exact ⟨le_of_eq hc, fun _ => ⟨hs, he⟩⟩

theorem range'_split (s m n : ℕ) :
    List.range' s (m + n) = List.range' s m ++ List.range' (s + m) n := by
  induction m generalizing s with
  | zero => simp
  | succ m ih =>
      have h : m + 1 + n = (m + n) + 1 := by omega
      rw [h, List.range'_succ, List.range'_succ, ih (s + 1), List.cons_append]
      have h2 : s + 1 + m = s + (m + 1) := by omega
      rw [h2]

/-- The window test of `bruteMatches`, as a Bool predicate. -/
def bmPred (genes : List Gene_s) (c : ℕ) (p bp : ℤ) : ℕ → Bool := fun i =>
  decide ((genes.getD i default).chr = c ∧
    p ≤ (genes.getD i default).stop + bp ∧ p ≥ (genes.getD i default).start - bp)

theorem bruteMatches_eq (genes : List Gene_s) (c : ℕ) (p bp : ℤ) :
    bruteMatches genes c p bp = (List.range genes.length).filter (bmPred genes c p bp) := rfl

theorem bmPred_true_iff (genes : List Gene_s) (c : ℕ) (p bp : ℤ) (j : ℕ) :
    bmPred genes c p bp j = true ↔
      ((genes.getD j default).chr = c ∧
        p ≤ (genes.getD j default).stop + bp ∧ p ≥ (genes.getD j default).start - bp) := by
  simp [bmPred]

theorem match_iff_bmPred (genes : List Gene_s) (c : ℕ) (p bp : ℤ) (j : ℕ) :
    Match genes c p bp j ↔ j < genes.length ∧ bmPred genes c p bp j = true := by
  rw [bmPred_true_iff]
  exact ⟨fun ⟨a, b, c', d⟩ => ⟨a, b, c', d⟩, fun ⟨a, b, c', d⟩ => ⟨a, b, c', d⟩⟩

theorem mem_bruteMatches (genes : List Gene_s) (c : ℕ) (p bp : ℤ) (j : ℕ) :
    j ∈ bruteMatches genes c p bp ↔ Match genes c p bp j := by
  rw [bruteMatches_eq, List.mem_filter, List.mem_range, match_iff_bmPred]

/-- After a forward-scan break at a same-chromosome gene whose window
starts beyond the site, no catalog index at or past the break matches. -/
theorem noMatchBeyond_A {genes : List Gene_s} (hsort : SortedCatalog genes)
    {c : ℕ} {p bp : ℤ} {b : ℕ} (hb : b < genes.length)
    (hchr : (genes.getD b default).chr = c) (hpos : p < (genes.getD b default).start - bp) :
    ∀ j, b ≤ j → ¬ Match genes c p bp j := by
  intro j hbj hM
  obtain ⟨hj, hjc, hjstop, hjstart⟩ := hM
  obtain ⟨hcle, himp⟩ := sorted_get hsort hbj hj
  have hceq : (genes.getD b default).chr = (genes.getD j default).chr := by
    rw [hchr, hjc]
  have hstart := (himp hceq).1
  omega

/-- After a forward-scan break at a gene of a later chromosome, no
catalog index at or past the break matches. -/
theorem noMatchBeyond_B {genes : List Gene_s} (hsort : SortedCatalog genes)
    {c : ℕ} {p bp : ℤ} {b : ℕ} (hb : b < genes.length)
    (hchr : c < (genes.getD b default).chr) :
    ∀ j, b ≤ j → ¬ Match genes c p bp j := by
  intro j hbj hM
  obtain ⟨hj, hjc, -, -⟩ := hM
  have hcle := (sorted_get hsort hbj hj).1
  omega

/-- The forward scan starting at `i` collects exactly the window matches
at indices `≥ i`. -/
theorem siteLoop_fst {genes : List Gene_s} (hsort : SortedCatalog genes)
    (c : ℕ) (p bp : ℤ) :
    ∀ (n i k : ℕ), genes.length - i = n →
      (siteLoop genes c p bp i k).1 =
        (List.range' i (genes.length - i)).filter (bmPred genes c p bp) := by
  intro n
  induction n with
  | zero =>
      intro i k hn
      have hi : ¬ (i < genes.length) := by omega
      rw [siteLoop, hn]
      simp [hi]
  | succ n ih =>
      intro i k hn
      have hi : i < genes.length := by omega
      have hrange : List.range' i (genes.length - i) =
          i :: List.range' (i + 1) (genes.length - (i + 1)) := by
        have h1 : genes.length - i = (genes.length - (i + 1)) + 1 := by omega
        rw [h1, List.range'_succ]
      rw [siteLoop]
      rw [dif_pos hi]
      by_cases hc : c = (genes.getD i default).chr
      · by_cases hw : p ≤ (genes.getD i default).stop + bp ∧ p ≥ (genes.getD i default).start - bp
        · rw [if_pos hc, if_pos hw]
          simp only []
          rw [hrange, List.filter_cons]
          have hbm : bmPred genes c p bp i = true := by
            rw [bmPred_true_iff]
            exact ⟨hc.symm, hw.1, hw.2⟩
          rw [hbm]
          simp only [if_true]
          rw [ih (i + 1) k (by omega)]
        · by_cases hlt : p < (genes.getD i default).start - bp
          · rw [if_pos hc, if_neg hw, if_pos hlt]
            have hnil : (List.range' i (genes.length - i)).filter (bmPred genes c p bp) = [] := by
              apply List.filter_eq_nil.2
              intro j hj
              rw [List.mem_range'] at hj
              have hnm := noMatchBeyond_A hsort hi hc.symm hlt j (by omega)
              intro hbm
              exact hnm ((match_iff_bmPred genes c p bp j).2 ⟨by omega, hbm⟩)
            rw [hnil]
          · rw [if_pos hc, if_neg hw, if_neg hlt]
            have hbm : bmPred genes c p bp i = false := by
              by_contra hb
              rw [Bool.not_eq_false, bmPred_true_iff] at hb
              exact hw ⟨hb.2.1, hb.2.2⟩
            rw [hrange, List.filter_cons, hbm]
            simp only [Bool.false_eq_true, if_false]
            rw [ih (i + 1) k (by omega)]
      · by_cases hlt : c < (genes.getD i default).chr
        · rw [if_neg hc, if_pos hlt]
          have hnil : (List.range' i (genes.length - i)).filter (bmPred genes c p bp) = [] := by
            apply List.filter_eq_nil.2
            intro j hj
            rw [List.mem_range'] at hj
            have hnm := @noMatchBeyond_B genes hsort c p bp i hi hlt j (by omega)
            intro hbm
            exact hnm ((match_iff_bmPred genes c p bp j).2 ⟨by omega, hbm⟩)
          rw [hnil]
        · rw [if_neg hc, if_neg hlt]
          have hbm : bmPred genes c p bp i = false := by
            by_contra hb
            rw [Bool.not_eq_false, bmPred_true_iff] at hb
            exact hc hb.1.symm
          rw [hrange, List.filter_cons, hbm]
          simp only [Bool.false_eq_true, if_false]
          rw [ih (i + 1) k (by omega)]

theorem backScan_le (genes : List Gene_s) (p bp : ℤ) (i : ℕ) :
    ∀ (n j k : ℕ), i + 1 - j = n → backScan genes p bp i k j ≤ max k (i + 1 - j) := by
  intro n
  induction n with
  | zero =>
      intro j k hn
      have hj : ¬ (j ≤ i) := by omega
      rw [backScan, dif_neg hj]
      exact le_max_left _ _
  | succ n ih =>
      intro j k hn
      have hj : j ≤ i := by omega
      rw [backScan, dif_pos hj]
      by_cases hw : p ≤ (genes.getD (i - j) default).stop + bp ∧
          p ≥ (genes.getD (i - j) default).start - bp
      · rw [if_pos hw]
        have h := ih (j + 1) (i - j) (by omega)
        have h2 : max (i - j) (i + 1 - (j + 1)) ≤ max k (i + 1 - j) := by omega
        omega
      · rw [if_neg hw]
        by_cases hgt : p > (genes.getD (i - j) default).stop + bp
        · rw [if_pos hgt]
          by_cases hone : 1 ≤ i - j
          · rw [if_pos hone]
            by_cases hgt2 : p > (genes.getD (i - j - 1) default).stop + bp
            · rw [if_pos hgt2]
              exact le_max_left _ _
            · rw [if_neg hgt2]
              have h := ih (j + 1) k (by omega)
              omega
          · rw [if_neg hone]
            exact le_max_left _ _
        · rw [if_neg hgt]
          have h := ih (j + 1) k (by omega)
          omega

theorem backScanChr_le (genes : List Gene_s) (c : ℕ) (p bp : ℤ) (i : ℕ) :
    ∀ (n j k : ℕ), i + 1 - j = n → backScanChr genes c p bp i k j ≤ max k (i + 1 - j) := by
  intro n
  induction n with
  | zero =>
      intro j k hn
      have hj : ¬ (j ≤ i) := by omega
      rw [backScanChr, dif_neg hj]
      exact le_max_left _ _
  | succ n ih =>
      intro j k hn
      have hj : j ≤ i := by omega
      rw [backScanChr, dif_pos hj]
      by_cases hc : c = (genes.getD (i - j) default).chr
      · rw [if_pos hc]
        by_cases hw : p ≤ (genes.getD (i - j) default).stop + bp ∧
            p ≥ (genes.getD (i - j) default).start - bp
        · rw [if_pos hw]
          have h := ih (j + 1) (i - j) (by omega)
          omega
        · rw [if_neg hw]
          by_cases hgt : p > (genes.getD (i - j) default).stop + bp
          · rw [if_pos hgt]
            by_cases hone : 1 ≤ i - j
            · rw [if_pos hone]
              by_cases hgt2 : p > (genes.getD (i - j - 1) default).stop + bp
              · rw [if_pos hgt2]
                exact le_max_left _ _
              · rw [if_neg hgt2]
                have h := ih (j + 1) k (by omega)
                omega
            · rw [if_neg hone]
              exact le_max_left _ _
          · rw [if_neg hgt]
            have h := ih (j + 1) k (by omega)
            omega
      · rw [if_neg hc]
        by_cases hlt : (genes.getD (i - j) default).chr < c
        · rw [if_pos hlt]
          exact le_max_left _ _
        · rw [if_neg hlt]
          have h := ih (j + 1) k (by omega)
          omega

/-- The backward rewind scan started at a same-chromosome break point `b`
ends at or below every match `m < b`: within a non-nested catalog it can
neither stop early (the genes between `m` and `b` all have windows
reaching at least as high as `m`'s) nor skip `m`. -/
theorem backScan_reaches {genes : List Gene_s} (hsort : SortedCatalog genes)
    {c : ℕ} {p bp : ℤ} {m b : ℕ} (hM : Match genes c p bp m)
    (hmb : m < b) (hb : b < genes.length) (hbc : (genes.getD b default).chr = c) :
    ∀ (d j : ℕ), j + d = b - m → 1 ≤ j → ∀ k, backScan genes p bp b k j ≤ m := by
  obtain ⟨hmlen, hmc, hmstop, hmstart⟩ := hM
  intro d
  induction d with
  | zero =>
      intro j hjd hj1 k
      have hjm : b - j = m := by omega
      have hjb : j ≤ b := by omega
      rw [backScan, dif_pos hjb, hjm]
      have hw : p ≤ (genes.getD m default).stop + bp ∧ p ≥ (genes.getD m default).start - bp :=
        ⟨hmstop, hmstart⟩
      rw [if_pos hw]
      have h := backScan_le genes p bp b (b + 1 - (j + 1)) (j + 1) m rfl
      omega
  | succ d ih =>
      intro j hjd hj1 k
      have hjb : j ≤ b := by omega
      have htm : m < b - j := by omega
      rw [backScan, dif_pos hjb]
      -- the examined index `b - j` lies strictly between `m` and `b`
      have htc : (genes.getD (b - j) default).chr = c := by
        have h1 := (sorted_get hsort (le_of_lt htm) (by omega : b - j < genes.length)).1
        have h2 := (sorted_get hsort (by omega : b - j ≤ b) hb).1
        omega
      have hstop : (genes.getD m default).stop ≤ (genes.getD (b - j) default).stop := by
        have := (sorted_get hsort (le_of_lt htm) (by omega : b - j < genes.length)).2
        exact (this (by omega)).2
      by_cases hw : p ≤ (genes.getD (b - j) default).stop + bp ∧
          p ≥ (genes.getD (b - j) default).start - bp
      · rw [if_pos hw]
        exact ih (j + 1) (by omega) (by omega) (b - j)
      · rw [if_neg hw]
        have hgt : ¬ (p > (genes.getD (b - j) default).stop + bp) := by omega
        rw [if_neg hgt]
        exact ih (j + 1) (by omega) (by omega) k

/-- As `backScan_reaches`, for the chromosome-aware rewind scan started
at a later-chromosome break point. -/
theorem backScanChr_reaches {genes : List Gene_s} (hsort : SortedCatalog genes)
    {c : ℕ} {p bp : ℤ} {m b : ℕ} (hM : Match genes c p bp m)
    (hmb : m < b) (hb : b < genes.length) (hbc : c < (genes.getD b default).chr) :
    ∀ (d j : ℕ), j + d = b - m → 1 ≤ j → ∀ k, backScanChr genes c p bp b k j ≤ m := by
  obtain ⟨hmlen, hmc, hmstop, hmstart⟩ := hM
  intro d
  induction d with
  | zero =>
      intro j hjd hj1 k
      have hjm : b - j = m := by omega
      have hjb : j ≤ b := by omega
      rw [backScanChr, dif_pos hjb, hjm]
      rw [if_pos hmc.symm]
      have hw : p ≤ (genes.getD m default).stop + bp ∧ p ≥ (genes.getD m default).start - bp :=
        ⟨hmstop, hmstart⟩
      rw [if_pos hw]
      have h := backScanChr_le genes c p bp b (b + 1 - (j + 1)) (j + 1) m rfl
      omega
  | succ d ih =>
      intro j hjd hj1 k
      have hjb : j ≤ b := by omega
      have htm : m < b - j := by omega
      rw [backScanChr, dif_pos hjb]
      have htc : c ≤ (genes.getD (b - j) default).chr := by
        have h1 := (sorted_get hsort (le_of_lt htm) (by omega : b - j < genes.length)).1
        omega
      by_cases hc : c = (genes.getD (b - j) default).chr
      · rw [if_pos hc]
        have hstop : (genes.getD m default).stop ≤ (genes.getD (b - j) default).stop := by
          have := (sorted_get hsort (le_of_lt htm) (by omega : b - j < genes.length)).2
          exact (this (by omega)).2
        by_cases hw : p ≤ (genes.getD (b - j) default).stop + bp ∧
            p ≥ (genes.getD (b - j) default).start - bp
        · rw [if_pos hw]
          exact ih (j + 1) (by omega) (by omega) (b - j)
        · rw [if_neg hw]
          have hgt : ¬ (p > (genes.getD (b - j) default).stop + bp) := by omega
          rw [if_neg hgt]
          exact ih (j + 1) (by omega) (by omega) k
      · rw [if_neg hc]
        have hlt : ¬ ((genes.getD (b - j) default).chr < c) := by omega
        rw [if_neg hlt]
        exact ih (j + 1) (by omega) (by omega) k

/-- If `k'` is at or below every match of the current site, every index
below it is dead for the current and all later stream keys. -/
theorem InvK_of_le_all {genes : List Gene_s} (hsort : SortedCatalog genes)
    {c : ℕ} {p bp : ℤ} {k' : ℕ} (hex : ∃ m, Match genes c p bp m)
    (hle : ∀ m, Match genes c p bp m → k' ≤ m) : InvK genes bp c p k' := by
  obtain ⟨m0, hm0⟩ := hex
  intro h hk' hlen
  have hhm : h < m0 := lt_of_lt_of_le hk' (hle m0 hm0)
  have hc0 : (genes.getD m0 default).chr = c := hm0.2.1
  have hchr : (genes.getD h default).chr ≤ c := by
    have := (sorted_get hsort (le_of_lt hhm) hm0.1).1
    omega
  rcases lt_or_eq_of_le hchr with hlt | heq
  · exact Or.inl hlt
  · refine Or.inr ⟨heq, ?_⟩
    by_contra hge
    push_neg at hge
    have hstart : (genes.getD h default).start ≤ (genes.getD m0 default).start := by
      have := (sorted_get hsort (le_of_lt hhm) hm0.1).2
      exact (this (by rw [heq, hm0.2.1])).1
    have hMh : Match genes c p bp h :=
      ⟨lt_trans hhm hm0.1, heq, hge, by have := hm0.2.2.2; omega⟩
    exact absurd (hle h hMh) (by omega)

/-- Extending the dead-prefix invariant across one dead gene. -/
theorem InvK_succ {genes : List Gene_s} {bp : ℤ} {c : ℕ} {p : ℤ} {g : ℕ}
    (hI : InvK genes bp c p g)
    (hd : g < genes.length →
      (genes.getD g default).chr < c ∨
      ((genes.getD g default).chr = c ∧ (genes.getD g default).stop + bp < p)) :
    InvK genes bp c p (g + 1) := by
  intro h hlt hlen
  rcases Nat.lt_or_ge h g with h1 | h1
  · exact hI h h1 hlen
  · have : h = g := by omega
    subst this
    exact hd hlen

/-- The dead-prefix invariant is antitone along the stream order. -/
theorem InvK_mono {genes : List Gene_s} {bp : ℤ} {c : ℕ} {p : ℤ} {c' : ℕ} {p' : ℤ} {k : ℕ}
    (hI : InvK genes bp c p k) (hle : c < c' ∨ (c = c' ∧ p ≤ p')) :
    InvK genes bp c' p' k := by
  intro h hlt hlen
  rcases hI h hlt hlen with h1 | ⟨h1, h2⟩
  · exact Or.inl (by omega)
  · rcases hle with h3 | ⟨h3, h4⟩
    · exact Or.inl (by omega)
    · exact Or.inr ⟨by omega, by omega⟩

/-- The forward scan preserves the dead-prefix invariant of the rewind
index, provided the site has at least one match (in the driver it always
does: the pre-scan gates the aggregation loop). -/
theorem siteLoop_snd {genes : List Gene_s} (hsort : SortedCatalog genes)
    {c : ℕ} {p bp : ℤ} (hex : ∃ m, Match genes c p bp m) :
    ∀ (n i k : ℕ), genes.length - i = n → InvK genes bp c p k →
      InvK genes bp c p ((siteLoop genes c p bp i k).2) := by
  intro n
  induction n with
  | zero =>
      intro i k hn hI
      have hi : ¬ (i < genes.length) := by omega
      rw [siteLoop, dif_neg hi]
      exact hI
  | succ n ih =>
      intro i k hn hI
      have hi : i < genes.length := by omega
      rw [siteLoop, dif_pos hi]
      by_cases hc : c = (genes.getD i default).chr
      · by_cases hw : p ≤ (genes.getD i default).stop + bp ∧
            p ≥ (genes.getD i default).start - bp
        · rw [if_pos hc, if_pos hw]
          exact ih (i + 1) k (by omega) hI
        · by_cases hlt : p < (genes.getD i default).start - bp
          · rw [if_pos hc, if_neg hw, if_pos hlt]
            refine InvK_of_le_all hsort hex ?_
            intro m hm
            have hmi : m < i := by
              by_contra hge
              push_neg at hge
              exact noMatchBeyond_A hsort hi hc.symm hlt m hge hm
            exact backScan_reaches hsort hm hmi hi hc.symm (i - m - 1) 1 (by omega)
              (by omega) i
          · rw [if_pos hc, if_neg hw, if_neg hlt]
            exact ih (i + 1) k (by omega) hI
      · by_cases hlt : c < (genes.getD i default).chr
        · rw [if_neg hc, if_pos hlt]
          refine InvK_of_le_all hsort hex ?_
          intro m hm
          have hmi : m < i := by
            by_contra hge
            push_neg at hge
            exact noMatchBeyond_B hsort hi hlt m hge hm
          exact backScanChr_reaches hsort hm hmi hi hlt (i - m - 1) 1 (by omega)
            (by omega) i
        · rw [if_neg hc, if_neg hlt]
          exact ih (i + 1) k (by omega) hI

/-- The rewind index never moves past the end of the catalog. -/
theorem siteLoop_k_le (genes : List Gene_s) (c : ℕ) (p bp : ℤ) :
    ∀ (n i k : ℕ), genes.length - i = n → k ≤ genes.length →
      (siteLoop genes c p bp i k).2 ≤ genes.length := by
  intro n
  induction n with
  | zero =>
      intro i k hn hk
      have hi : ¬ (i < genes.length) := by omega
      rw [siteLoop, dif_neg hi]
      exact hk
  | succ n ih =>
      intro i k hn hk
      have hi : i < genes.length := by omega
      rw [siteLoop, dif_pos hi]
      by_cases hc : c = (genes.getD i default).chr
      · by_cases hw : p ≤ (genes.getD i default).stop + bp ∧
            p ≥ (genes.getD i default).start - bp
        · rw [if_pos hc, if_pos hw]
          exact ih (i + 1) k (by omega) hk
        · by_cases hlt : p < (genes.getD i default).start - bp
          · rw [if_pos hc, if_neg hw, if_pos hlt]
            have h := backScan_le genes p bp i (i + 1 - 1) 1 i rfl
            omega
          · rw [if_pos hc, if_neg hw, if_neg hlt]
            exact ih (i + 1) k (by omega) hk
      · by_cases hlt : c < (genes.getD i default).chr
        · rw [if_neg hc, if_pos hlt]
          have h := backScanChr_le genes c p bp i (i + 1 - 1) 1 i rfl
          omega
        · rw [if_neg hc, if_neg hlt]
          exact ih (i + 1) k (by omega) hk

/-- Under the dead-prefix invariant the forward scan's match list is the
brute-force association set. -/
theorem siteLoop_complete {genes : List Gene_s} (hsort : SortedCatalog genes)
    {c : ℕ} {p bp : ℤ} {k : ℕ} (hk : k ≤ genes.length) (hI : InvK genes bp c p k) :
    (siteLoop genes c p bp k k).1 = bruteMatches genes c p bp := by
  rw [siteLoop_fst hsort c p bp (genes.length - k) k k rfl, bruteMatches_eq,
    List.range_eq_range']
  have hsplit : genes.length = k + (genes.length - k) := by omega
  have h0 : (List.range' 0 genes.length).filter (bmPred genes c p bp) =
      (List.range' 0 k).filter (bmPred genes c p bp) ++
      (List.range' (0 + k) (genes.length - k)).filter (bmPred genes c p bp) := by
    rw [← List.filter_append, ← range'_split]
    rw [← hsplit]
  rw [h0]
  have h1 : (List.range' 0 k).filter (bmPred genes c p bp) = [] := by
    apply List.filter_eq_nil.2
    intro j hj
    rw [List.mem_range'] at hj
    have hjk : j < k := by omega
    intro hbm
    have hM := (match_iff_bmPred genes c p bp j).2 ⟨by omega, hbm⟩
    rcases hI j hjk (by omega) with h2 | ⟨h2, h3⟩
    · exact absurd hM.2.1 (by omega)
    · have := hM.2.2.1
      omega
  rw [h1, List.nil_append, Nat.zero_add]

/-- The pre-scan decides exactly brute-force association, and preserves
the dead-prefix invariant of its persistent cursor. -/
theorem preFilter_char {genes : List Gene_s} (hsort : SortedCatalog genes)
    (c : ℕ) (p bp : ℤ) :
    ∀ (n gi : ℕ), genes.length - gi = n → InvK genes bp c p gi →
      (((preFilter genes c p bp gi).1 = true ↔ ∃ m, Match genes c p bp m) ∧
        InvK genes bp c p (preFilter genes c p bp gi).2) := by
  intro n
  induction n with
  | zero =>
      intro gi hn hI
      have hgi : ¬ (gi < genes.length) := by omega
      rw [preFilter, dif_neg hgi]
      refine ⟨⟨fun h => absurd h (by simp), fun ⟨m, hm⟩ => ?_⟩, hI⟩
      obtain ⟨hm1, hm2, hm3, hm4⟩ := hm
      rcases hI m (by omega) hm1 with h1 | ⟨h1, h2⟩
      · exact absurd hm2 (by omega)
      · omega
  | succ n ih =>
      intro gi hn hI
      have hgi : gi < genes.length := by omega
      rw [preFilter, dif_pos hgi]
      by_cases hc : c = (genes.getD gi default).chr
      · by_cases hw : p ≤ (genes.getD gi default).stop + bp ∧
            p ≥ (genes.getD gi default).start - bp
        · rw [if_pos hc, if_pos hw]
          exact ⟨⟨fun _ => ⟨gi, hgi, hc.symm, hw.1, hw.2⟩, fun _ => rfl⟩, hI⟩
        · by_cases hlt : p < (genes.getD gi default).start - bp
          · rw [if_pos hc, if_neg hw, if_pos hlt]
            refine ⟨⟨fun h => absurd h (by simp), fun ⟨m, hm⟩ => ?_⟩, hI⟩
            rcases Nat.lt_or_ge m gi with h1 | h1
            · obtain ⟨hm1, hm2, hm3, hm4⟩ := hm
              rcases hI m h1 hm1 with h2 | ⟨h2, h3⟩
              · exact absurd hm2 (by omega)
              · omega
            · exact absurd hm (noMatchBeyond_A hsort hgi hc.symm hlt m h1)
          · rw [if_pos hc, if_neg hw, if_neg hlt]
            refine ih (gi + 1) (by omega) (InvK_succ hI fun _ => ?_)
            exact Or.inr ⟨hc.symm, by omega⟩
      · by_cases hlt : c < (genes.getD gi default).chr
        · rw [if_neg hc, if_pos hlt]
          refine ⟨⟨fun h => absurd h (by simp), fun ⟨m, hm⟩ => ?_⟩, hI⟩
          rcases Nat.lt_or_ge m gi with h1 | h1
          · obtain ⟨hm1, hm2, hm3, hm4⟩ := hm
            rcases hI m h1 hm1 with h2 | ⟨h2, h3⟩
            · exact absurd hm2 (by omega)
            · omega
          · exact absurd hm (noMatchBeyond_B hsort hgi hlt m h1)
        · rw [if_neg hc, if_neg hlt]
          refine ih (gi + 1) (by omega) (InvK_succ hI fun _ => ?_)
          exact Or.inl (by omega)

theorem bruteMatches_nil_of_no_match {genes : List Gene_s} {c : ℕ} {p bp : ℤ}
    (h : ¬ ∃ m, Match genes c p bp m) : bruteMatches genes c p bp = [] := by
  rw [List.eq_nil_iff_forall_not_mem]
  intro j hj
  exact h ⟨j, (mem_bruteMatches genes c p bp j).1 hj⟩

theorem piRun_cons (genes : List Gene_s) (bp min : ℤ) (st : PiState) (s0 : Site)
    (rest : List Site) :
    piRun genes bp min st (s0 :: rest) =
      ((piRun genes bp min (piStep genes bp min st s0).1 rest).1,
        (piStep genes bp min st s0).2 ::
          (piRun genes bp min (piStep genes bp min st s0).1 rest).2) := rfl

theorem piStep_of_pf_false {genes : List Gene_s} {bp min : ℤ} {st : PiState} {s : Site}
    (hfr : (preFilter genes s.chr s.pos bp st.gi).1 = false) :
    piStep genes bp min st s =
      ({ st with gi := (preFilter genes s.chr s.pos bp st.gi).2 }, []) := by
  simp [piStep, hfr]

theorem piStep_of_none {genes : List Gene_s} {bp min : ℤ} {st : PiState} {s : Site}
    (hfr : ¬ ((preFilter genes s.chr s.pos bp st.gi).1 = false))
    (hps : piSite s.probs min = none) :
    piStep genes bp min st s =
      ({ st with gi := (preFilter genes s.chr s.pos bp st.gi).2 }, []) := by
  simp [piStep, hfr, hps]

theorem piStep_of_some {genes : List Gene_s} {bp min : ℤ} {st : PiState} {s : Site} {v : ℚ}
    (hfr : ¬ ((preFilter genes s.chr s.pos bp st.gi).1 = false))
    (hps : piSite s.probs min = some v) :
    piStep genes bp min st s =
      ({ accs := applyPi genes s.pos v st.accs (siteLoop genes s.chr s.pos bp st.k st.k).1,
         k := (siteLoop genes s.chr s.pos bp st.k st.k).2,
         gi := (preFilter genes s.chr s.pos bp st.gi).2 },
        (siteLoop genes s.chr s.pos bp st.k st.k).1) := by
  simp [piStep, hfr, hps]

/-- Master induction over the site stream: the cursor reproduces the
brute-force association set for every qualifying site, the rewind index
stays in bounds, and the dead-prefix invariants carry over to any later
stream key. -/
theorem piRun_master {genes : List Gene_s} {bp min : ℤ} (hsort : SortedCatalog genes) :
    ∀ (sites : List Site) (st : PiState), SortedStream sites →
      st.k ≤ genes.length →
      (∀ s ∈ sites, InvK genes bp s.chr s.pos st.k) →
      (∀ s ∈ sites, InvK genes bp s.chr s.pos st.gi) →
      (List.Forall₂
        (fun s ms => (piSite s.probs min).isSome →
          ms = bruteMatches genes s.chr s.pos bp)
        sites (piRun genes bp min st sites).2 ∧
      (piRun genes bp min st sites).1.k ≤ genes.length ∧
      ∀ s' : Site, (∀ s ∈ sites, s.chr < s'.chr ∨ (s.chr = s'.chr ∧ s.pos ≤ s'.pos)) →
        InvK genes bp s'.chr s'.pos st.k → InvK genes bp s'.chr s'.pos st.gi →
        InvK genes bp s'.chr s'.pos (piRun genes bp min st sites).1.k ∧
        InvK genes bp s'.chr s'.pos (piRun genes bp min st sites).1.gi) := by
  intro sites
  induction sites with
  | nil =>
      intro st _ hk _ _
      exact ⟨List.Forall₂.nil, hk, fun s' _ h1 h2 => ⟨h1, h2⟩⟩
  | cons s0 rest ih =>
      intro st hstream hk hIk hIg
      have hIk0 : InvK genes bp s0.chr s0.pos st.k := hIk s0 (List.mem_cons_self s0 rest)
      have hIg0 : InvK genes bp s0.chr s0.pos st.gi := hIg s0 (List.mem_cons_self s0 rest)
      have hrel : ∀ s ∈ rest, s0.chr < s.chr ∨ (s0.chr = s.chr ∧ s0.pos ≤ s.pos) :=
        (List.pairwise_cons.1 hstream).1
      have hstream' : SortedStream rest := (List.pairwise_cons.1 hstream).2
      have hpf := preFilter_char hsort s0.chr s0.pos bp (genes.length - st.gi) st.gi rfl hIg0
      by_cases hfr : (preFilter genes s0.chr s0.pos bp st.gi).1 = false
      · -- no region is associated with this site
        have hnomatch : ¬ ∃ m, Match genes s0.chr s0.pos bp m := by
          intro hex
          have := hpf.1.2 hex
          rw [hfr] at this
          exact Bool.false_ne_true this
        have hstep := @piStep_of_pf_false genes bp min st s0 hfr
        have hst' : (piStep genes bp min st s0).1 =
            { st with gi := (preFilter genes s0.chr s0.pos bp st.gi).2 } := by
          rw [hstep]
        have hgirest : ∀ s ∈ rest,
            InvK genes bp s.chr s.pos (preFilter genes s0.chr s0.pos bp st.gi).2 :=
          fun s hs => InvK_mono hpf.2 (hrel s hs)
        have hrec := ih (piStep genes bp min st s0).1 hstream' (by rw [hst']; exact hk)
          (fun s hs => by rw [hst']; exact hIk s (List.mem_cons_of_mem s0 hs))
          (fun s hs => by rw [hst']; exact hgirest s hs)
        rw [piRun_cons]
        refine ⟨?_, hrec.2.1, ?_⟩
        · refine List.Forall₂.cons ?_ hrec.1
          intro _
          rw [hstep, bruteMatches_nil_of_no_match hnomatch]
        · intro s' hdom h1 h2
          exact hrec.2.2 s' (fun s hs => hdom s (List.mem_cons_of_mem s0 hs))
            (by rw [hst']; exact h1)
            (by rw [hst']; exact InvK_mono hpf.2 (hdom s0 (List.mem_cons_self s0 rest)))
      · -- the site is associated with at least one region
        have hfrt : (preFilter genes s0.chr s0.pos bp st.gi).1 = true := by
          rwa [Bool.not_eq_false] at hfr
        have hex : ∃ m, Match genes s0.chr s0.pos bp m := hpf.1.1 hfrt
        cases hps : piSite s0.probs min with
        | none =>
            have hstep := @piStep_of_none genes bp min st s0 hfr hps
            have hst' : (piStep genes bp min st s0).1 =
                { st with gi := (preFilter genes s0.chr s0.pos bp st.gi).2 } := by
              rw [hstep]
            have hgirest : ∀ s ∈ rest,
                InvK genes bp s.chr s.pos (preFilter genes s0.chr s0.pos bp st.gi).2 :=
              fun s hs => InvK_mono hpf.2 (hrel s hs)
            have hrec := ih (piStep genes bp min st s0).1 hstream' (by rw [hst']; exact hk)
              (fun s hs => by rw [hst']; exact hIk s (List.mem_cons_of_mem s0 hs))
              (fun s hs => by rw [hst']; exact hgirest s hs)
            rw [piRun_cons]
            refine ⟨?_, hrec.2.1, ?_⟩
            · refine List.Forall₂.cons ?_ hrec.1
              intro habs
              rw [hps] at habs
              exact absurd habs (by simp)
            · intro s' hdom h1 h2
              exact hrec.2.2 s' (fun s hs => hdom s (List.mem_cons_of_mem s0 hs))
                (by rw [hst']; exact h1)
                (by rw [hst']; exact InvK_mono hpf.2 (hdom s0 (List.mem_cons_self s0 rest)))
        | some v =>
            have hstep := @piStep_of_some genes bp min st s0 v hfr hps
            have hmatches : (siteLoop genes s0.chr s0.pos bp st.k st.k).1 =
                bruteMatches genes s0.chr s0.pos bp :=
              siteLoop_complete hsort hk hIk0
            have hk2 : (siteLoop genes s0.chr s0.pos bp st.k st.k).2 ≤ genes.length :=
              siteLoop_k_le genes s0.chr s0.pos bp (genes.length - st.k) st.k st.k rfl hk
            have hIk2 : InvK genes bp s0.chr s0.pos
                (siteLoop genes s0.chr s0.pos bp st.k st.k).2 :=
              siteLoop_snd hsort hex (genes.length - st.k) st.k st.k rfl hIk0
            have hst' : (piStep genes bp min st s0).1 =
                { accs := applyPi genes s0.pos v st.accs
                    (siteLoop genes s0.chr s0.pos bp st.k st.k).1,
                  k := (siteLoop genes s0.chr s0.pos bp st.k st.k).2,
                  gi := (preFilter genes s0.chr s0.pos bp st.gi).2 } := by
              rw [hstep]
            have hrec := ih (piStep genes bp min st s0).1 hstream' (by rw [hst']; exact hk2)
              (fun s hs => by rw [hst']; exact InvK_mono hIk2 (hrel s hs))
              (fun s hs => by rw [hst']; exact InvK_mono hpf.2 (hrel s hs))
            rw [piRun_cons]
            refine ⟨?_, hrec.2.1, ?_⟩
            · refine List.Forall₂.cons ?_ hrec.1
              intro _
              rw [hstep]
              exact hmatches
            · intro s' hdom h1 h2
              exact hrec.2.2 s' (fun s hs => hdom s (List.mem_cons_of_mem s0 hs))
                (by rw [hst']
                    exact InvK_mono hIk2 (hdom s0 (List.mem_cons_self s0 rest)))
                (by rw [hst']
                    exact InvK_mono hpf.2 (hdom s0 (List.mem_cons_self s0 rest)))

/-- C1 (amended): for every region catalog sorted by chromosome then
start whose per-chromosome end coordinates are also nondecreasing (no
region nested inside an earlier one — `cursor_misses_nested_region` shows
the claim is false without this), every sorted site stream and any flank
`bp ≥ 0`, the set of regions whose bin accumulators receive a
contribution from a qualifying site is exactly the brute-force
association set `{R | R.chr = site.chr ∧ R.start - bp ≤ pos ≤ R.end + bp}`. -/
theorem join_matches_bruteforce (genes : List Gene_s) (bp min : ℤ) (sites : List Site)
    (hsort : SortedCatalog genes) (hstream : SortedStream sites) (hbp : 0 ≤ bp) :
    List.Forall₂
      (fun s ms => (piSite s.probs min).isSome →
        ms = bruteMatches genes s.chr s.pos bp)
      sites (piRun genes bp min (piState0 genes) sites).2 := by
  have h := @piRun_master genes bp min hsort sites (piState0 genes) hstream (Nat.zero_le _)
    (fun s _ h hlt _ => absurd hlt (Nat.not_lt_zero h))
    (fun s _ h hlt _ => absurd hlt (Nat.not_lt_zero h))
  exact h.1

/-- Witness for `join_matches_bruteforce` on the two-region catalog and
the single overlapping-flank site. -/
theorem join_matches_bruteforce_witness :
    List.Forall₂
      (fun (s : Site) ms => (piSite s.probs 1).isSome →
        ms = bruteMatches c6_genes s.chr s.pos 150)
      [⟨1, 260, [(0, 1, 0)]⟩]
      (piRun c6_genes 150 1 (piState0 c6_genes) [⟨1, 260, [(0, 1, 0)]⟩]).2 := by
  refine join_matches_bruteforce c6_genes 150 1 [⟨1, 260, [(0, 1, 0)]⟩] ?_ ?_ (by norm_num)
  · rw [SortedCatalog, c6_genes]
    refine List.pairwise_cons.2 ⟨?_, ?_⟩
    · intro g hg
      rw [List.mem_singleton] at hg
      subst hg
      right
      refine ⟨rfl, by norm_num, by norm_num⟩
    · exact List.pairwise_singleton _ _
  · rw [SortedStream]
    exact List.pairwise_singleton _ _

theorem piRun_append (genes : List Gene_s) (bp min : ℤ) :
    ∀ (L M : List Site) (st : PiState),
      (piRun genes bp min st (L ++ M)).1 =
        (piRun genes bp min (piRun genes bp min st L).1 M).1 := by
  intro L
  induction L with
  | nil => intro M st; rfl
  | cons s0 rest ih =>
      intro M st
      rw [List.cons_append, piRun_cons, piRun_cons]
      exact ih M (piStep genes bp min st s0).1

theorem applyPi_length (genes : List Gene_s) (p : ℤ) (v : ℚ) :
    ∀ (ms : List ℕ) (accs : List PiAcc), (applyPi genes p v accs ms).length = accs.length := by
  intro ms
  induction ms with
  | nil => intro accs; rfl
  | cons i tl ih =>
      intro accs
      show (applyPi genes p v (accs.set i _) tl).length = _
      rw [ih, List.length_set]

theorem applyPi_getD_not_mem (genes : List Gene_s) (p : ℤ) (v : ℚ) :
    ∀ (ms : List ℕ) (accs : List PiAcc) (r : ℕ), r ∉ ms →
      (applyPi genes p v accs ms).getD r piAcc0 = accs.getD r piAcc0 := by
  intro ms
  induction ms with
  | nil => intro accs r _; rfl
  | cons i tl ih =>
      intro accs r hr
      have hri : r ≠ i := fun h => hr (h ▸ List.mem_cons_self i tl)
      have hrtl : r ∉ tl := fun h => hr (List.mem_cons_of_mem i h)
      show (applyPi genes p v (accs.set i _) tl).getD r piAcc0 = _
      rw [ih _ r hrtl]
      rw [List.getD_eq_getElem?_getD, List.getD_eq_getElem?_getD,
        List.getElem?_set_ne (Ne.symm hri)]
      rw [List.getD_eq_getElem?_getD]

theorem applyPi_getD_mem (genes : List Gene_s) (p : ℤ) (v : ℚ) :
    ∀ (ms : List ℕ) (accs : List PiAcc) (r : ℕ), ms.Nodup → r ∈ ms → r < accs.length →
      (applyPi genes p v accs ms).getD r piAcc0 =
        bumpPiAcc (accs.getD r piAcc0) (binOf (genes.getD r default) p) v := by
  intro ms
  induction ms with
  | nil => intro accs r _ hr; exact absurd hr (List.not_mem_nil r)
  | cons i tl ih =>
      intro accs r hnd hr hlen
      rcases List.mem_cons.1 hr with rfl | hrtl
      · have hrtl : r ∉ tl := (List.nodup_cons.1 hnd).1
        show (applyPi genes p v (accs.set r _) tl).getD r piAcc0 = _
        rw [applyPi_getD_not_mem genes p v tl _ r hrtl]
        rw [List.getD_eq_getElem?_getD, List.getElem?_set_self (by omega)]
        rfl
      · have hri : r ≠ i := fun h => (List.nodup_cons.1 hnd).1 (h ▸ hrtl)
        show (applyPi genes p v (accs.set i _) tl).getD r piAcc0 = _
        rw [ih _ r (List.nodup_cons.1 hnd).2 hrtl (by rw [List.length_set]; exact hlen)]
        simp only [List.getD_eq_getElem?_getD, List.getElem?_set_ne (Ne.symm hri)]

theorem bruteMatches_nodup (genes : List Gene_s) (c : ℕ) (p bp : ℤ) :
    (bruteMatches genes c p bp).Nodup := by
  rw [bruteMatches_eq]
  exact (List.nodup_range _).filter _

theorem piStep_accs_length (genes : List Gene_s) (bp min : ℤ) (st : PiState) (s : Site) :
    (piStep genes bp min st s).1.accs.length = st.accs.length := by
  by_cases hfr : (preFilter genes s.chr s.pos bp st.gi).1 = false
  · rw [piStep_of_pf_false hfr]
  · cases hps : piSite s.probs min with
    | none => rw [piStep_of_none hfr hps]
    | some v =>
        rw [piStep_of_some hfr hps]
        exact applyPi_length genes s.pos v _ st.accs

theorem piRun_accs_length (genes : List Gene_s) (bp min : ℤ) :
    ∀ (sites : List Site) (st : PiState),
      (piRun genes bp min st sites).1.accs.length = st.accs.length := by
  intro sites
  induction sites with
  | nil => intro st; rfl
  | cons s0 rest ih =>
      intro st
      rw [piRun_cons]
      show (piRun genes bp min (piStep genes bp min st s0).1 rest).1.accs.length = _
      rw [ih, piStep_accs_length]

/-- Selects the accumulator of one bin. -/
def binTheta (a : PiAcc) (b : Bin) : Theta_s :=
  match b with
  | Bin.up => a.up
  | Bin.cds => a.cds
  | Bin.down => a.down

theorem binTheta_bump (a : PiAcc) (b : Bin) (v : ℚ) :
    binTheta (bumpPiAcc a b v) b = bumpTheta (binTheta a b) v := by
  cases b <;> rfl

/-- C8 (amended): over a region catalog sorted by chromosome then start
whose per-chromosome end coordinates are also nondecreasing (the original
claim fails on a catalog with nested regions:
`duplicate_line_not_doubled`), a qualifying site line occurring twice in
the sorted stream contributes exactly twice, with no deduplication by
`(chromosome, position)`: each occurrence adds one site and one `2p(1-p)`
term to the matched region's bin, so after the second occurrence the
accumulated count and sum exceed the pre-duplicate state by exactly
double the single-occurrence contribution. -/
theorem duplicate_site_doubles (genes : List Gene_s) (bp min : ℤ) (L : List Site)
    (s : Site) (v : ℚ) (hsort : SortedCatalog genes)
    (hstream : SortedStream (L ++ [s, s]))
    (hq : piSite s.probs min = some v) :
    ∀ r ∈ bruteMatches genes s.chr s.pos bp,
      (binTheta ((piRun genes bp min (piState0 genes) (L ++ [s])).1.accs.getD r piAcc0)
          (binOf (genes.getD r default) s.pos) =
        ⟨(binTheta ((piRun genes bp min (piState0 genes) L).1.accs.getD r piAcc0)
            (binOf (genes.getD r default) s.pos)).L + 1,
          (binTheta ((piRun genes bp min (piState0 genes) L).1.accs.getD r piAcc0)
            (binOf (genes.getD r default) s.pos)).tP + v⟩) ∧
      (binTheta ((piRun genes bp min (piState0 genes) (L ++ [s, s])).1.accs.getD r piAcc0)
          (binOf (genes.getD r default) s.pos) =
        ⟨(binTheta ((piRun genes bp min (piState0 genes) L).1.accs.getD r piAcc0)
            (binOf (genes.getD r default) s.pos)).L + 2,
          (binTheta ((piRun genes bp min (piState0 genes) L).1.accs.getD r piAcc0)
            (binOf (genes.getD r default) s.pos)).tP + 2 * v⟩) := by
  intro r hr
  have hM : Match genes s.chr s.pos bp r := (mem_bruteMatches genes s.chr s.pos bp r).1 hr
  have hex : ∃ m, Match genes s.chr s.pos bp m := ⟨r, hM⟩
  have hpw := List.pairwise_append.1 hstream
  have hL : SortedStream L := hpw.1
  have hdom : ∀ x ∈ L, x.chr < s.chr ∨ (x.chr = s.chr ∧ x.pos ≤ s.pos) := by
    intro x hx
    exact hpw.2.2 x hx s (List.mem_cons_self s [s])
  have hmaster := @piRun_master genes bp min hsort L (piState0 genes) hL (Nat.zero_le _)
    (fun s1 _ h hlt _ => absurd hlt (Nat.not_lt_zero h))
    (fun s1 _ h hlt _ => absurd hlt (Nat.not_lt_zero h))
  set st0 := (piRun genes bp min (piState0 genes) L).1 with hst0
  have hk0 : st0.k ≤ genes.length := hmaster.2.1
  have hInv := hmaster.2.2 s hdom
    (fun h hlt _ => absurd hlt (Nat.not_lt_zero h))
    (fun h hlt _ => absurd hlt (Nat.not_lt_zero h))
  have hIk0 : InvK genes bp s.chr s.pos st0.k := hInv.1
  have hIg0 : InvK genes bp s.chr s.pos st0.gi := hInv.2
  have hpf := preFilter_char hsort s.chr s.pos bp (genes.length - st0.gi) st0.gi rfl hIg0
  have hfrne1 : ¬ ((preFilter genes s.chr s.pos bp st0.gi).1 = false) := by
    rw [hpf.1.2 hex]
    exact fun h => nomatch h
  have hstep1 := @piStep_of_some genes bp min st0 s v hfrne1 hq
  have ha1 : (piStep genes bp min st0 s).1.accs =
      applyPi genes s.pos v st0.accs (siteLoop genes s.chr s.pos bp st0.k st0.k).1 := by
    rw [hstep1]
  have hk1e : (piStep genes bp min st0 s).1.k =
      (siteLoop genes s.chr s.pos bp st0.k st0.k).2 := by
    rw [hstep1]
  have hg1e : (piStep genes bp min st0 s).1.gi =
      (preFilter genes s.chr s.pos bp st0.gi).2 := by
    rw [hstep1]
  have hB : (siteLoop genes s.chr s.pos bp st0.k st0.k).1 = bruteMatches genes s.chr s.pos bp :=
    siteLoop_complete hsort hk0 hIk0
  have hIk1 : InvK genes bp s.chr s.pos (siteLoop genes s.chr s.pos bp st0.k st0.k).2 :=
    siteLoop_snd hsort hex (genes.length - st0.k) st0.k st0.k rfl hIk0
  have hk1 : (siteLoop genes s.chr s.pos bp st0.k st0.k).2 ≤ genes.length :=
    siteLoop_k_le genes s.chr s.pos bp (genes.length - st0.k) st0.k st0.k rfl hk0
  have hIg1 : InvK genes bp s.chr s.pos (preFilter genes s.chr s.pos bp st0.gi).2 := hpf.2
  have hpf2 := preFilter_char hsort s.chr s.pos bp
    (genes.length - (preFilter genes s.chr s.pos bp st0.gi).2)
    (preFilter genes s.chr s.pos bp st0.gi).2 rfl hIg1
  have hfrne2 : ¬ ((preFilter genes s.chr s.pos bp (piStep genes bp min st0 s).1.gi).1 = false) := by
    rw [hg1e, hpf2.1.2 hex]
    exact fun h => nomatch h
  have hstep2 := @piStep_of_some genes bp min (piStep genes bp min st0 s).1 s v hfrne2 hq
  have ha2 : (piStep genes bp min (piStep genes bp min st0 s).1 s).1.accs =
      applyPi genes s.pos v (piStep genes bp min st0 s).1.accs
        (siteLoop genes s.chr s.pos bp (piStep genes bp min st0 s).1.k
          (piStep genes bp min st0 s).1.k).1 := by
    rw [hstep2]
  have hB2 : (siteLoop genes s.chr s.pos bp (piStep genes bp min st0 s).1.k
      (piStep genes bp min st0 s).1.k).1 = bruteMatches genes s.chr s.pos bp := by
    rw [hk1e]
    exact siteLoop_complete hsort hk1 hIk1
  have hlen0 : st0.accs.length = genes.length := by
    rw [hst0, piRun_accs_length]
    simp [piState0]
  have hrlen0 : r < st0.accs.length := by
    rw [hlen0]
    exact hM.1
  have hrlen1 : r < (piStep genes bp min st0 s).1.accs.length := by
    rw [ha1, applyPi_length]
    exact hrlen0
  have hfin1 : (piRun genes bp min (piState0 genes) (L ++ [s])).1 =
      (piStep genes bp min st0 s).1 := by
    rw [piRun_append, ← hst0]
    rfl
  have hfin2 : (piRun genes bp min (piState0 genes) (L ++ [s, s])).1 =
      (piStep genes bp min (piStep genes bp min st0 s).1 s).1 := by
    rw [piRun_append, ← hst0]
    rfl
  have hg1 : (piStep genes bp min st0 s).1.accs.getD r piAcc0 =
      bumpPiAcc (st0.accs.getD r piAcc0) (binOf (genes.getD r default) s.pos) v := by
    rw [ha1, hB]
    exact applyPi_getD_mem genes s.pos v _ _ r
      (bruteMatches_nodup genes s.chr s.pos bp) hr hrlen0
  have hg2 : (piStep genes bp min (piStep genes bp min st0 s).1 s).1.accs.getD r piAcc0 =
      bumpPiAcc ((piStep genes bp min st0 s).1.accs.getD r piAcc0)
        (binOf (genes.getD r default) s.pos) v := by
    rw [ha2, hB2]
    exact applyPi_getD_mem genes s.pos v _ _ r
      (bruteMatches_nodup genes s.chr s.pos bp) hr hrlen1
  rw [hfin1, hfin2, hg2, hg1, binTheta_bump, binTheta_bump, binTheta_bump]
  constructor
  · rfl
  · show bumpTheta (bumpTheta _ v) v = _
    simp only [bumpTheta, Theta_s.mk.injEq]
    constructor
    · ring
    · ring

/-- The one-region catalog and duplicated site used to witness the
amended duplicate-doubling theorem. -/
def c8_genes : List Gene_s := [⟨1, 100, 200, '+'⟩]

def c8_site : Site := ⟨1, 150, [(0, 1, 0)]⟩

/-- Witness for `duplicate_site_doubles`: one `+`-strand region
`[100, 200]`, `bp = 0`, the qualifying site `150` duplicated. -/
theorem duplicate_site_doubles_witness :
    (binTheta ((piRun c8_genes 0 1 (piState0 c8_genes) ([] ++ [c8_site])).1.accs.getD 0 piAcc0)
        (binOf (c8_genes.getD 0 default) c8_site.pos) =
      ⟨(binTheta ((piRun c8_genes 0 1 (piState0 c8_genes) []).1.accs.getD 0 piAcc0)
          (binOf (c8_genes.getD 0 default) c8_site.pos)).L + 1,
        (binTheta ((piRun c8_genes 0 1 (piState0 c8_genes) []).1.accs.getD 0 piAcc0)
          (binOf (c8_genes.getD 0 default) c8_site.pos)).tP + 1 / 2⟩) ∧
    (binTheta ((piRun c8_genes 0 1 (piState0 c8_genes) ([] ++ [c8_site, c8_site])).1.accs.getD 0 piAcc0)
        (binOf (c8_genes.getD 0 default) c8_site.pos) =
      ⟨(binTheta ((piRun c8_genes 0 1 (piState0 c8_genes) []).1.accs.getD 0 piAcc0)
          (binOf (c8_genes.getD 0 default) c8_site.pos)).L + 2,
        (binTheta ((piRun c8_genes 0 1 (piState0 c8_genes) []).1.accs.getD 0 piAcc0)
          (binOf (c8_genes.getD 0 default) c8_site.pos)).tP + 2 * (1 / 2)⟩) := by
  refine duplicate_site_doubles c8_genes 0 1 [] c8_site (1 / 2) ?_ ?_ piSite_010 0 ?_
  · rw [SortedCatalog, c8_genes]
    exact List.pairwise_singleton _ _
  · rw [SortedStream, List.nil_append]
    refine List.Pairwise.cons ?_ (List.pairwise_singleton _ _)
    intro y hy
    rw [List.mem_singleton] at hy
    subst hy
    right
    exact ⟨rfl, le_refl _⟩
  · rw [mem_bruteMatches]
    refine ⟨by rw [c8_genes]; exact Nat.zero_lt_one, ?_, ?_, ?_⟩ <;> rw [c8_genes, c8_site] <;> norm_num

/-- Witness for `piSite_correct`: one informative heterozygote triplet,
`min = 1`, the emitted value `1/2` matches the dosage formula. -/
theorem piSite_correct_witness :
    (1 / 2 : ℚ) = 2 * (doseSum [(0, 1, 0)] / (2 * (infCount [(0, 1, 0)] : ℚ))) *
      (1 - doseSum [(0, 1, 0)] / (2 * (infCount [(0, 1, 0)] : ℚ))) :=
  (piSite_correct [(0, 1, 0)] 1).2.1 (1 / 2) piSite_010

end LyrataRnaMet
